import Mathlib

/-!
Verification of the static-site generator in `tools/build_site.py` and
`tools/gen_index.py`.

The development is a shallow embedding of the two Python modules:

* strings are Lean `String`s and Python string/`pathlib` helpers are
  modelled character-exactly for the ASCII fragment the programs use
  (`str.strip`, `str.splitlines`, `str.startswith`, `str.endswith`,
  `html.escape`, `PurePath.stem` / `with_suffix` / `as_posix`);
* a source tree is the inductive `Fs` (a rose tree of named files with
  textual content and named directories);
* the Markdown rendering library (`markdown.markdown`) is an external
  collaborator and is passed in as an opaque function argument `render`;
* the wall-clock timestamp (`datetime.now().strftime(...)`) is passed in
  as a string argument `ts`;
* file writes are modelled by returning the list of (path, content)
  pairs that the scripts would write.
-/

/-! ## Python string primitives -/

/-- Python's `\s` / `str.strip()` whitespace test, restricted to the ASCII
whitespace characters `空白 \t \n \r \x0b \x0c` (the programs' inputs in the
claims are ASCII; Unicode whitespace is out of scope of this model). -/
def pyIsSpace (c : Char) : Bool :=
  c == ' ' || c == '\t' || c == '\n' || c == '\r' || c == '\x0b' || c == '\x0c'

/-- Python `s.strip()`: remove leading and trailing whitespace. -/
def pyStrip (s : String) : String :=
  ⟨((s.data.dropWhile pyIsSpace).reverse.dropWhile pyIsSpace).reverse⟩

/-- Python `s.startswith(pre)`. -/
def pyStartsWith (s pre : String) : Bool := pre.data.isPrefixOf s.data

/-- Python `s.endswith(suf)`. -/
def pyEndsWith (s suf : String) : Bool := suf.data.isSuffixOf s.data

/-- Split a character list at every `'\n'` (Python `s.split("\n")`). -/
def splitOnNl : List Char → List (List Char)
  | [] => [[]]
  | c :: rest =>
      if c = '\n' then [] :: splitOnNl rest
      else
        match splitOnNl rest with
        | [] => [[c]]
        | h :: t => (c :: h) :: t

/-- Python `s.splitlines()` for strings whose line terminators are `\n`
(the only terminator relevant here): split on `\n`, with no trailing empty
line for a trailing terminator, and `[]` for the empty string. -/
def pySplitlines (s : String) : List String :=
  let l := (splitOnNl s.data).map (fun d => (⟨d⟩ : String))
  if l.getLast? = some "" then l.dropLast else l

/-- `pathlib`'s split of a final path component into stem and suffix:
the suffix starts at the last `'.'`, provided that dot is neither the
first nor the last character of the name (`PurePath.suffix`). -/
def pySplitExt (name : String) : String × String :=
  match name.data.reverse.findIdx? (· == '.') with
  | none => (name, "")
  | some j =>
      let i := name.data.length - 1 - j
      if 0 < i ∧ i < name.data.length - 1 then
        (⟨name.data.take i⟩, ⟨name.data.drop i⟩)
      else (name, "")

/-- Python `PurePath(name).stem`. -/
def pyStem (name : String) : String := (pySplitExt name).1

/-- Python `PurePath(name).suffix`. -/
def pyNameSuffix (name : String) : String := (pySplitExt name).2

/-- Python `PurePath(name).with_suffix(ext)` applied to a final path
component: the stem with the new extension appended. -/
def pyWithSuffix (name ext : String) : String := pyStem name ++ ext

/-- One character of `html.escape(s, quote=True)`. -/
def pyEscapeChar (c : Char) : String :=
  if c = '&' then "&amp;"
  else if c = '<' then "&lt;"
  else if c = '>' then "&gt;"
  else if c = '"' then "&quot;"
  else if c = '\'' then "&#x27;"
  else String.singleton c

/-- Concatenated per-character escapes. -/
def pyEscapeData : List Char → List Char
  | [] => []
  | c :: rest => (pyEscapeChar c).data ++ pyEscapeData rest

/-- Python `html.escape(s, quote=True)`.  The library replaces `&` first
and then the other four characters, which is the same as an independent
per-character substitution. -/
def pyHtmlEscape (s : String) : String := ⟨pyEscapeData s.data⟩

/-- `PurePath.as_posix()` / `"/".join(parts)` on a list of path parts. -/
def posixJoin : List String → String
  | [] => ""
  | [a] => a
  | a :: b :: rest => a ++ "/" ++ posixJoin (b :: rest)

/-- Apply `g` to the final component of a path (how `with_suffix` acts on
a whole path). -/
def mapLast (g : String → String) : List String → List String
  | [] => []
  | [a] => [g a]
  | a :: b :: rest => a :: mapLast g (b :: rest)

/-- The destination path of a document: the same path with the final
component's extension swapped (`md_path.with_suffix(".html")`). -/
def htmlDest (p : List String) : List String := mapLast (fun n => pyWithSuffix n ".html") p

/-- The final component of a path (`Path.name`), `""` for the empty path. -/
def lastName (p : List String) : String := p.getLastD ""

/-- Whether `sub` occurs as a contiguous run inside `l` (used to state
facts about generated HTML text). -/
def hasInfix (sub : List Char) : List Char → Bool
  | [] => sub.isPrefixOf []
  | c :: t => sub.isPrefixOf (c :: t) || hasInfix sub t

/-! ## Title extraction (`read_title_from_md`) -/

/-- Group 1 of `re.match(r"^\s*#\s+(.+)\s*$", line)` under Python's greedy
matching, `none` when the regex does not match.  After `\s*`, a literal
`#` and the greedy `\s+` (of length `k`), the greedy `(.+)` takes the
whole remainder when one exists (the trailing `\s*` then matches the empty
string); when the remainder after `#` is all whitespace the engine
backtracks one character of `\s+` into `(.+)`, which needs `k ≥ 2`. -/
def headingGroup1 (line : String) : Option String :=
  match line.data.dropWhile pyIsSpace with
  | [] => none
  | c :: rest =>
      if c = '#' then
        let k := (rest.takeWhile pyIsSpace).length
        if k = 0 then none
        else if k < rest.length then some ⟨rest.drop k⟩
        else if 2 ≤ k then some ⟨rest.drop (k - 1)⟩
        else none
      else none

/-- `read_title_from_md(md_text, fallback)`: group 1 of the first line
matching the heading regex, stripped; otherwise the fallback. -/
def read_title_from_md (md_text fallback : String) : String :=
  match (pySplitlines md_text).findSome? headingGroup1 with
  | some g => pyStrip g
  | none => fallback

/-! ## The source tree model -/

/-- A filesystem node under the content root: a file with its name and raw
text content, or a directory with its name and children.  The order of a
`children` list is the (arbitrary) order in which the operating system
enumerates the directory, as seen by `os.walk` and `Path.rglob`. -/
inductive Fs where
  | file (name : String) (content : String) : Fs
  | dir (name : String) (children : List Fs) : Fs

/-- The name of a node. -/
def Fs.name : Fs → String
  | .file n _ => n
  | .dir n _ => n

/-- The names of the plain files among `cs`, in enumeration order
(the `filenames` component of one `os.walk` step). -/
def fileNames : List Fs → List String
  | [] => []
  | (.file n _) :: ts => n :: fileNames ts
  | (.dir _ _) :: ts => fileNames ts

/-- A legal on-disk name: nonempty and without a path separator. -/
def goodNameB (n : String) : Bool := !(n == "") && !(n.data.contains '/')

/-- No duplicates, as a boolean. -/
def nodupB : List String → Bool
  | [] => true
  | a :: as => !(as.contains a) && nodupB as

/-- Well-formedness of a directory's children, as found on a real
filesystem: sibling names are distinct, every name is a legal on-disk
name, and no *directory* is named like a Markdown file (`Path.rglob("*.md")`
would yield such a directory and `build_site.py` would then crash trying
to read it as a file, so no output exists for such trees). -/
def wfEach : List Fs → Bool
  | [] => true
  | (.file n _) :: ts => goodNameB n && wfEach ts
  | (.dir n cs) :: ts =>
      goodNameB n && !(pyEndsWith n ".md") && nodupB (cs.map Fs.name) &&
        wfEach cs && wfEach ts

/-- Well-formedness of the whole forest under `posts/`. -/
def wfRoot (cs : List Fs) : Bool := nodupB (cs.map Fs.name) && wfEach cs

/-! ## `tools/build_site.py` -/

namespace BuildSite

/-- `EXCLUDE_DIRS = {".git", ".github", "tools", "assets", "__pycache__"}`. -/
def EXCLUDE_DIRS : List String := [".git", ".github", "tools", "assets", "__pycache__"]

/-- `BASE_CSS` (literal braces written with escapes). -/
def BASE_CSS : String :=
  "\n:root \x7b color-scheme: light; \x7d\nbody\x7b\n  font-family: system-ui,-apple-system,BlinkMacSystemFont,\"Segoe UI\",Roboto,sans-serif;\n  margin: 24px; line-height: 1.75; max-width: 980px;\n\x7d\na\x7b text-decoration: none; \x7d\na:hover\x7b text-decoration: underline; \x7d\nhr\x7b margin: 24px 0; \x7d\npre\x7b overflow:auto; padding: 12px; border:1px solid #e5e5e5; border-radius:10px; \x7d\ncode\x7b font-family: ui-monospace, SFMono-Regular, Menlo, Monaco, Consolas, \"Liberation Mono\", monospace; \x7d\nblockquote\x7b border-left: 4px solid #ddd; padding-left: 12px; color:#444; \x7d\n.container\x7b border:1px solid #ddd; border-radius: 12px; padding: 16px; \x7d\n.hint\x7b color:#555; font-size:.92em; \x7d\n.small\x7b color:#666; font-size:.9em; \x7d\n"

/-- `esc(s) = html.escape(s, quote=True)`. -/
def esc (s : String) : String := pyHtmlEscape s

/-- The fixed back link of every rendered page. -/
def back_href : String := "../../index.html"

/-- Everything of the page f-string (lines 58-76) strictly before the
generation-timestamp line; `html.escape`'s default is `quote=True`, so the
escaped title uses the same escaping as `esc`. -/
def pageBeforeTs (title mdPosix body : String) : String :=
  "<!doctype html>\n<html lang=\"ja\">\n<head>\n  <meta charset=\"utf-8\">\n  <meta name=\"viewport\" content=\"width=device-width, initial-scale=1\">\n  <title>" ++
    esc title ++
  "</title>\n  <style>" ++ BASE_CSS ++ "</style>\n</head>\n<body>\n  <p class=\"small\"><a href=\"" ++
    back_href ++
  "\">← indexへ戻る</a></p>\n  <h1>" ++
    esc title ++
  "</h1>\n  <div class=\"hint\">" ++
    mdPosix ++
  "</div>\n  <hr>\n  " ++
    body ++
  "\n  <hr>\n"

/-- The generation-timestamp line of a rendered page (line 73). -/
def generatedLine (ts : String) : String :=
  "  <p class=\"small\">Generated: " ++ ts ++ "</p>"

/-- Everything of the page f-string after the timestamp line. -/
def pageAfterTs : String := "\n</body>\n</html>\n"

/-- The HTML shell assembled by `md_to_html` around an already rendered
body (the f-string of lines 58-76). -/
def pageHtml (title mdPosix body ts : String) : String :=
  pageBeforeTs title mdPosix body ++ generatedLine ts ++ pageAfterTs

/-- `md_to_html(md_path)`: derive the title from the file's text (falling
back to the filename stem) and assemble the page.  The Markdown library is
the external `render`; the generation timestamp is the external `ts`. -/
def md_to_html (render : String → String) (ts : String)
    (mdPath : List String) (mdText : String) : String × String :=
  let title := read_title_from_md mdText (pyStem (lastName mdPath))
  (title, pageHtml title (posixJoin mdPath) (render mdText) ts)

/-- `POSTS_DIR.rglob("*.md")` with file contents, in enumeration order:
every file at any depth whose name ends in `.md`, with no pruning
(`rglob` descends into every directory; the exclusions are applied
afterwards by `build_posts_html`). -/
def rglobMd (pre : List String) : List Fs → List (List String × String)
  | [] => []
  | (.file n c) :: ts =>
      (if pyEndsWith n ".md" then [(pre ++ [n], c)] else []) ++ rglobMd pre ts
  | (.dir n cs) :: ts => rglobMd (pre ++ [n]) cs ++ rglobMd pre ts

/-- `sorted(...)` over paths: Python compares `Path` objects by their
path string, so the sort key of an entry is `posixJoin` of its path. -/
def sortByPath (l : List (List String × String)) : List (List String × String) :=
  List.insertionSort (fun a b => posixJoin a.1 ≤ posixJoin b.1) l

/-- The exclusion test of `build_posts_html` (lines 89-92): skip a path
when any part starts with `"."` or any part is in `EXCLUDE_DIRS`. -/
def partsOk (p : List String) : Bool :=
  !(p.any (fun part => pyStartsWith part ".")) &&
    !(p.any (fun part => EXCLUDE_DIRS.contains part))

/-- The documents `build_posts_html` processes, in processing order:
all `*.md` files under `posts/` sorted by path, minus the excluded ones
(the loop `continue`s over those).  `none` models a missing `posts/`
directory, for which nothing is processed. -/
def processedDocs : Option (List Fs) → List (List String × String)
  | none => []
  | some forest => (sortByPath (rglobMd ["posts"] forest)).filter (fun pc => partsOk pc.1)

/-- `build_posts_html()`: returns the `{md_path: title}` mapping (as an
association list in insertion order) and the list of file writes
`(html_path, html_doc)` it performs. -/
def build_posts_html (render : String → String) (ts : String)
    (root : Option (List Fs)) :
    List (List String × String) × List (List String × String) :=
  ((processedDocs root).map (fun pc => (pc.1, (md_to_html render ts pc.1 pc.2).1)),
   (processedDocs root).map (fun pc => (htmlDest pc.1, (md_to_html render ts pc.1 pc.2).2)))

/-- `titles.get(md_path, default)` on the association list produced by
`build_posts_html` (its keys are distinct, so first match is the match). -/
def dictGet (titles : List (List String × String)) (k : List String) (dflt : String) : String :=
  match titles.find? (fun e => e.1 == k) with
  | some e => e.2
  | none => dflt

/-- One file entry of the index tree (line 138-143 of `build_index`):
the md path, the link target, the link label and the raw filename. -/
structure Entry where
  mdPath : List String
  href : String
  label : String
  fname : String
deriving Repr, DecidableEq

/-- The entry built for file `f` of directory `pre`:
`href = (dirpath / f).with_suffix(".html").as_posix()` and
`label = titles.get(md_path, md_path.stem)`. -/
def mkEntry (titles : List (List String × String)) (pre : List String) (f : String) : Entry :=
  { mdPath := pre ++ [f]
    href := posixJoin (htmlDest (pre ++ [f]))
    label := dictGet titles (pre ++ [f]) (pyStem f)
    fname := f }

/-- The directory-pruning test of the walk (line 127). -/
def dirOk (d : String) : Bool := !(EXCLUDE_DIRS.contains d) && !(pyStartsWith d ".")

/-- The filename filter of the walk (line 128). -/
def fileOk (f : String) : Bool := pyEndsWith f ".md" && !(pyStartsWith f ".")

/-- Python `sorted` on strings. -/
def sortedStr (l : List String) : List String :=
  List.insertionSort (fun a b : String => a ≤ b) l

/-- The entries emitted for the files of one walked directory `pre` with
children `cs`: kept filenames, sorted, each made into an `Entry`. -/
def dirEntries (titles : List (List String × String)) (pre : List String)
    (cs : List Fs) : List Entry :=
  (sortedStr ((fileNames cs).filter fileOk)).map (mkEntry titles pre)

/-- The entries contributed by the subdirectories of a walked directory:
`os.walk` visits each non-pruned subdirectory in enumeration order and,
for each, first lists its files and then recurses. -/
def walkEntries (titles : List (List String × String)) (pre : List String) :
    List Fs → List Entry
  | [] => []
  | (.file _ _) :: ts => walkEntries titles pre ts
  | (.dir n cs) :: ts =>
      (if dirOk n then
        dirEntries titles (pre ++ [n]) cs ++ walkEntries titles (pre ++ [n]) cs
       else []) ++ walkEntries titles pre ts

/-- All file entries of the generated index, in emission order. -/
def indexEntries (titles : List (List String × String)) (cs : List Fs) : List Entry :=
  dirEntries titles ["posts"] cs ++ walkEntries titles ["posts"] cs

/-- `"  " * depth`. -/
def indentStr (depth : Nat) : String := String.join (List.replicate depth "  ")

/-- The emitted `<li>` line of one file entry (line 143). -/
def entryLine (indent : String) (e : Entry) : String :=
  indent ++ "  <li><a href=\"" ++ esc e.href ++ "\">" ++ esc e.label ++
    "</a> <span class=\"small\">(" ++ esc e.fname ++ ")</span></li>"

/-- The opening lines of a non-root directory block (lines 134-136). -/
def blockOpen (indent name : String) : List String :=
  [indent ++ "<li><details open>",
   indent ++ "<summary><b>" ++ esc name ++ "/</b></summary>",
   indent ++ "<ul>"]

/-- The closing lines of a non-root directory block (lines 146-147). -/
def blockClose (indent : String) : List String :=
  [indent ++ "</ul>", indent ++ "</details></li>"]

/-- The `tree_lines` contributed by the subdirectory walk below `pre`
(whose depth relative to `posts/` is `depth`): for each non-pruned
subdirectory, its block (open tags, file lines, close tags) followed by
the blocks of its own subtree.  Note the close tags are emitted *before*
the subtree, exactly as the flat `os.walk` loop does. -/
def walkLines (titles : List (List String × String)) (pre : List String)
    (depth : Nat) : List Fs → List String
  | [] => []
  | (.file _ _) :: ts => walkLines titles pre depth ts
  | (.dir n cs) :: ts =>
      (if dirOk n then
        blockOpen (indentStr (depth + 1)) n ++
          (dirEntries titles (pre ++ [n]) cs).map (entryLine (indentStr (depth + 1))) ++
          blockClose (indentStr (depth + 1)) ++
          walkLines titles (pre ++ [n]) (depth + 1) cs
       else []) ++ walkLines titles pre depth ts

/-- All `tree_lines` of `build_index`: the root directory `posts/` gets no
tags, only its file lines at depth 0, followed by the subdirectory walk.
(The first loop of `build_index`, lines 116-120, only `continue`s and
contributes nothing, so it has no counterpart here.) -/
def tree_lines (titles : List (List String × String)) (cs : List Fs) : List String :=
  (dirEntries titles ["posts"] cs).map (entryLine (indentStr 0)) ++
    walkLines titles ["posts"] 0 cs

/-- `tree_html` (lines 110 and 149): the not-found placeholder when
`posts/` is missing, otherwise the joined tree lines inside `<ul>`. -/
def tree_html (titles : List (List String × String)) (root : Option (List Fs)) : String :=
  match root with
  | none => "<p><b>posts/ が見つかりません。</b></p>"
  | some cs => "<ul>\n" ++ String.intercalate "\n" (tree_lines titles cs) ++ "\n</ul>"

/-- The index f-string (lines 151-171) before the interpolated tree. -/
def indexShellPre : String :=
  "<!doctype html>\n<html lang=\"ja\">\n<head>\n  <meta charset=\"utf-8\">\n  <meta name=\"viewport\" content=\"width=device-width, initial-scale=1\">\n  <title>memo | tech notes</title>\n  <style>" ++
    BASE_CSS ++
  "</style>\n</head>\n<body>\n  <h1>memo</h1>\n  <p class=\"hint\">Markdownから自動生成された技術メモ集（HTML変換＋目次自動生成）</p>\n\n  <div class=\"container\">\n    "

/-- The index f-string after the interpolated tree. -/
def indexShellPost : String :=
  "\n  </div>\n\n  <hr>\n  <p class=\"hint\">このページは GitHub Actions により自動生成されています。</p>\n</body>\n</html>\n"

/-- The full `index.html` text written by `build_index` (lines 151-171). -/
def build_index (titles : List (List String × String)) (root : Option (List Fs)) : String :=
  indexShellPre ++ tree_html titles root ++ indexShellPost

/-- `main()`: render all posts, then write the index; the result is the
full list of `(path, content)` writes of one pipeline run. -/
def mainWrites (render : String → String) (ts : String)
    (root : Option (List Fs)) : List (List String × String) :=
  (build_posts_html render ts root).2 ++
    [(["index.html"], build_index (build_posts_html render ts root).1 root)]

end BuildSite

/-! ## `tools/gen_index.py` -/

namespace GenIndex

/-- `EXCLUDE_DIRS = {".git", ".github", "tools", "assets"}` — note: no
`__pycache__`, unlike `build_site.py`. -/
def EXCLUDE_DIRS : List String := [".git", ".github", "tools", "assets"]

/-- `EXTS = {".md", ".html"}`. -/
def EXTS : List String := [".md", ".html"]

/-- `safe(s) = html.escape(s, quote=True)`. -/
def safe (s : String) : String := pyHtmlEscape s

/-- The directory-pruning test of `build_tree` (lines 26-29). -/
def dirOk (d : String) : Bool := !(EXCLUDE_DIRS.contains d) && !(pyStartsWith d ".")

/-- The filename filter of `build_tree` (lines 31-34):
`Path(f).suffix in EXTS and not f.startswith(".")`. -/
def fileOk (f : String) : Bool := EXTS.contains (pyNameSuffix f) && !(pyStartsWith f ".")

/-- One file entry of `build_tree` (lines 46-51): the link target is the
file's *original* path (`p.as_posix()`, no extension swap) and the label
is the raw filename. -/
structure GEntry where
  path : List String
  href : String
  label : String
deriving Repr, DecidableEq

/-- The entry built for file `f` of directory `pre`. -/
def mkGEntry (pre : List String) (f : String) : GEntry :=
  { path := pre ++ [f], href := posixJoin (pre ++ [f]), label := f }

/-- The entries emitted for the files of one walked directory. -/
def dirEntries (pre : List String) (cs : List Fs) : List GEntry :=
  (BuildSite.sortedStr ((fileNames cs).filter fileOk)).map (mkGEntry pre)

/-- The entries contributed by the subdirectory walk. -/
def walkEntries (pre : List String) : List Fs → List GEntry
  | [] => []
  | (.file _ _) :: ts => walkEntries pre ts
  | (.dir n cs) :: ts =>
      (if dirOk n then dirEntries (pre ++ [n]) cs ++ walkEntries (pre ++ [n]) cs
       else []) ++ walkEntries pre ts

/-- All file entries of the `gen_index.py` index, in emission order. -/
def indexEntries (cs : List Fs) : List GEntry :=
  dirEntries ["posts"] cs ++ walkEntries ["posts"] cs

/-- The emitted `<li>` line of one file entry (line 50). -/
def entryLine (indent : String) (e : GEntry) : String :=
  indent ++ "  <li><a href=\"" ++ safe e.href ++ "\">" ++ safe e.label ++ "</a></li>"

/-- `build_tree()`'s placeholder result for a missing `posts/` (line 18). -/
def notFound : String := "<p><b>posts/ が見つかりません。</b></p>"

/-- The opening lines of a non-root directory block (lines 41-43). -/
def blockOpen (indent name : String) : List String :=
  [indent ++ "<li><details open>",
   indent ++ "<summary><b>" ++ safe name ++ "/</b></summary>",
   indent ++ "<ul>"]

/-- The closing lines of a non-root directory block (lines 55-56). -/
def blockClose (indent : String) : List String :=
  [indent ++ "</ul>", indent ++ "</details></li>"]

/-- The lines contributed by the subdirectory walk of `build_tree`
(same flat `os.walk` loop shape as in `build_site.py`). -/
def walkLines (pre : List String) (depth : Nat) : List Fs → List String
  | [] => []
  | (.file _ _) :: ts => walkLines pre depth ts
  | (.dir n cs) :: ts =>
      (if dirOk n then
        blockOpen (BuildSite.indentStr (depth + 1)) n ++
          (dirEntries (pre ++ [n]) cs).map (entryLine (BuildSite.indentStr (depth + 1))) ++
          blockClose (BuildSite.indentStr (depth + 1)) ++
          walkLines (pre ++ [n]) (depth + 1) cs
       else []) ++ walkLines pre depth ts

/-- All lines of `build_tree`'s list for an existing `posts/`. -/
def treeLines (cs : List Fs) : List String :=
  (dirEntries ["posts"] cs).map (entryLine (BuildSite.indentStr 0)) ++
    walkLines ["posts"] 0 cs

/-- `build_tree()`: the placeholder when `posts/` does not exist,
otherwise the joined lines inside `<ul>` (lines 17-18 and 58). -/
def build_tree (root : Option (List Fs)) : String :=
  match root with
  | none => notFound
  | some cs => "<ul>\n" ++ String.intercalate "\n" (treeLines cs) ++ "\n</ul>"

end GenIndex

/-! ## A common view of the two walks

Both index builders are `os.walk` traversals differing only in their
filename filter and directory-pruning test.  `walkFilePaths fOk dOk`
is that traversal reduced to the list of visited file paths; the lemmas
about discovery are proved once about it and transported to each script
through the bridge lemmas below. -/

/-- The file paths listed for the files of one walked directory. -/
def levelFilePaths (fOk : String → Bool) (pre : List String) (cs : List Fs) :
    List (List String) :=
  (BuildSite.sortedStr ((fileNames cs).filter fOk)).map (fun f => pre ++ [f])

/-- The file paths contributed by the subdirectory walk. -/
def walkSubPaths (fOk dOk : String → Bool) (pre : List String) :
    List Fs → List (List String)
  | [] => []
  | (.file _ _) :: ts => walkSubPaths fOk dOk pre ts
  | (.dir n cs) :: ts =>
      (if dOk n then
        levelFilePaths fOk (pre ++ [n]) cs ++ walkSubPaths fOk dOk (pre ++ [n]) cs
       else []) ++ walkSubPaths fOk dOk pre ts

/-- All file paths visited by the walk rooted at `pre`. -/
def walkFilePaths (fOk dOk : String → Bool) (pre : List String) (cs : List Fs) :
    List (List String) :=
  levelFilePaths fOk pre cs ++ walkSubPaths fOk dOk pre cs

/-- The paths of `rglobMd`, without contents. -/
def rglobPaths (pre : List String) : List Fs → List (List String)
  | [] => []
  | (.file n _) :: ts =>
      (if pyEndsWith n ".md" then [pre ++ [n]] else []) ++ rglobPaths pre ts
  | (.dir n cs) :: ts => rglobPaths (pre ++ [n]) cs ++ rglobPaths pre ts

/-- The names of the directories among `cs`, in enumeration order
(the `dirnames` component of one `os.walk` step). -/
def dirNames : List Fs → List String
  | [] => []
  | (.file _ _) :: ts => dirNames ts
  | (.dir n _) :: ts => n :: dirNames ts

/-- A path part that survives `build_posts_html`'s exclusion test:
not hidden and not in `build_site.py`'s `EXCLUDE_DIRS`. -/
def cleanPart (s : String) : Bool :=
  !(pyStartsWith s ".") && !(BuildSite.EXCLUDE_DIRS.contains s)

/-! ## Helper lemmas about the string model -/

theorem string_data_mk (l : List Char) : (String.mk l).data = l := rfl

theorem pyEndsWith_md_iff (s : String) :
    pyEndsWith s ".md" = true ↔ ∃ x : String, s = x ++ ".md" := by
  unfold pyEndsWith
  rw [List.isSuffixOf_iff_suffix]
  constructor
  · rintro ⟨t, ht⟩
    refine ⟨⟨t⟩, String.ext ?_⟩
    rw [String.data_append, string_data_mk, ht]
  · rintro ⟨x, rfl⟩
    exact ⟨x.data, by rw [String.data_append]⟩

theorem ne_empty_data {x : String} (hx : x ≠ "") : x.data ≠ [] := by
  intro h
  exact hx (String.ext (h.trans rfl))

theorem pySplitExt_md (x : String) (hx : x ≠ "") :
    pySplitExt (x ++ ".md") = (x, ".md") := by
  have hdata : (x ++ ".md").data = x.data ++ ['.', 'm', 'd'] := by
    rw [String.data_append]
  have hlen : 0 < x.data.length :=
    List.length_pos.mpr (ne_empty_data hx)
  unfold pySplitExt
  rw [hdata]
  have hrev : (x.data ++ ['.', 'm', 'd']).reverse = 'd' :: 'm' :: '.' :: x.data.reverse := by
    simp
  rw [hrev]
  have hfind : List.findIdx? (· == '.') ('d' :: 'm' :: '.' :: x.data.reverse) = some 2 := by
    simp [List.findIdx?_cons, List.findIdx?_succ]
  rw [hfind]
  have hL : (x.data ++ ['.', 'm', 'd']).length = x.data.length + 3 := by simp
  simp only [hL]
  have hi : x.data.length + 3 - 1 - 2 = x.data.length := by omega
  rw [hi]
  have hcond : 0 < x.data.length ∧ x.data.length < x.data.length + 3 - 1 := by omega
  rw [if_pos hcond]
  have h1 : (x.data ++ ['.', 'm', 'd']).take x.data.length = x.data := List.take_left _ _
  have h2 : (x.data ++ ['.', 'm', 'd']).drop x.data.length = ['.', 'm', 'd'] := List.drop_left _ _
  rw [h1, h2]

theorem pyStem_md (x : String) (hx : x ≠ "") : pyStem (x ++ ".md") = x := by
  unfold pyStem
  rw [pySplitExt_md x hx]

theorem pyWithSuffix_md (x : String) (hx : x ≠ "") :
    pyWithSuffix (x ++ ".md") ".html" = x ++ ".html" := by
  unfold pyWithSuffix
  rw [pyStem_md x hx]

theorem goodNameB_iff (n : String) :
    goodNameB n = true ↔ n ≠ "" ∧ '/' ∉ n.data := by
  unfold goodNameB
  simp

theorem sep_split : ∀ (l₁ : List Char) {l₂ r s : List Char}, '/' ∉ l₁ → '/' ∉ l₂ →
    l₁ ++ '/' :: r = l₂ ++ '/' :: s → l₁ = l₂ ∧ r = s := by
  intro l₁
  induction l₁ with
  | nil =>
      intro l₂ r s _ h₂ h
      cases l₂ with
      | nil => simpa using h
      | cons c l₂' =>
          rw [List.nil_append, List.cons_append] at h
          injection h with h1 _
          subst h1
          exact absurd (List.mem_cons_self _ _) h₂
  | cons a l₁' ih =>
      intro l₂ r s h₁ h₂ h
      cases l₂ with
      | nil =>
          rw [List.cons_append, List.nil_append] at h
          injection h with h1 _
          rw [h1] at h₁
          exact absurd (List.mem_cons_self _ _) h₁
      | cons c l₂' =>
          simp only [List.cons_append, List.cons.injEq] at h
          obtain ⟨rfl, h'⟩ := h
          obtain ⟨hl, hr⟩ := ih (fun hm => h₁ (List.mem_cons_of_mem _ hm))
            (fun hm => h₂ (List.mem_cons_of_mem _ hm)) h'
          exact ⟨by rw [hl], hr⟩

theorem posixJoin_cons_cons (a b : String) (r : List String) :
    (posixJoin (a :: b :: r)).data = a.data ++ '/' :: (posixJoin (b :: r)).data := by
  show (a ++ "/" ++ posixJoin (b :: r)).data = _
  rw [String.data_append, String.data_append]
  simp

theorem posixJoin_inj : ∀ (p q : List String),
    (∀ s ∈ p, goodNameB s = true) → (∀ s ∈ q, goodNameB s = true) →
    posixJoin p = posixJoin q → p = q
  | [], [], _, _, _ => rfl
  | [], a :: q, _, hq, h => by
      exfalso
      have ha := (goodNameB_iff a).mp (hq a (List.mem_cons_self a q))
      cases q with
      | nil => exact ha.1 h.symm
      | cons b r =>
          have := congrArg String.data h
          rw [posixJoin_cons_cons] at this
          have : ([] : List Char) = a.data ++ '/' :: (posixJoin (b :: r)).data := this
          exact absurd this.symm (by simp)
  | a :: p, [], hp, _, h => by
      exfalso
      have ha := (goodNameB_iff a).mp (hp a (List.mem_cons_self a p))
      cases p with
      | nil => exact ha.1 h
      | cons b r =>
          have := congrArg String.data h
          rw [posixJoin_cons_cons] at this
          have : a.data ++ '/' :: (posixJoin (b :: r)).data = ([] : List Char) := this
          exact absurd this (by simp)
  | [a], [c], _, _, h => by
      simpa [posixJoin] using h
  | [a], c :: d :: s, hp, hq, h => by
      exfalso
      have ha := (goodNameB_iff a).mp (hp a (List.mem_cons_self a []))
      have := congrArg String.data h
      rw [posixJoin_cons_cons] at this
      have hmem : '/' ∈ a.data := by
        rw [show (posixJoin [a]).data = a.data from rfl] at this
        rw [this]
        exact List.mem_append_right _ (List.mem_cons_self _ _)
      exact ha.2 hmem
  | a :: b :: r, [c], hp, hq, h => by
      exfalso
      have hc := (goodNameB_iff c).mp (hq c (List.mem_cons_self c []))
      have := congrArg String.data h
      rw [posixJoin_cons_cons] at this
      have hmem : '/' ∈ c.data := by
        rw [show (posixJoin [c]).data = c.data from rfl] at this
        rw [← this]
        exact List.mem_append_right _ (List.mem_cons_self _ _)
      exact hc.2 hmem
  | a :: b :: r, c :: d :: s, hp, hq, h => by
      have ha := (goodNameB_iff a).mp (hp a (List.mem_cons_self _ _))
      have hc := (goodNameB_iff c).mp (hq c (List.mem_cons_self _ _))
      have hdata := congrArg String.data h
      rw [posixJoin_cons_cons, posixJoin_cons_cons] at hdata
      obtain ⟨h1, h2⟩ := sep_split a.data ha.2 hc.2 hdata
      have hrest : posixJoin (b :: r) = posixJoin (d :: s) := String.ext h2
      have := posixJoin_inj (b :: r) (d :: s)
        (fun x hx => hp x (List.mem_cons_of_mem _ hx))
        (fun x hx => hq x (List.mem_cons_of_mem _ hx)) hrest
      rw [String.ext h1, this]

theorem mapLast_concat (g : String → String) :
    ∀ (q : List String) (f : String), mapLast g (q ++ [f]) = q ++ [g f] := by
  intro q
  induction q with
  | nil => intro f; rfl
  | cons a q ih =>
      intro f
      cases q with
      | nil => rfl
      | cons b q' =>
          show a :: mapLast g (b :: q' ++ [f]) = _
          rw [ih f]
          rfl

/-! ## Helper lemmas about title extraction -/

theorem dropWhile_dropWhile {α : Type} (p : α → Bool) (l : List α) :
    (l.dropWhile p).dropWhile p = l.dropWhile p := by
  induction l with
  | nil => rfl
  | cons a l ih =>
      rw [List.dropWhile_cons]
      by_cases h : p a = true
      · rw [if_pos h]; exact ih
      · rw [if_neg h, List.dropWhile_cons, if_neg h]

theorem findSome?_prefix_none {α β : Type} (f : α → Option β) :
    ∀ (pre rest : List α), (∀ x ∈ pre, f x = none) →
    List.findSome? f (pre ++ rest) = List.findSome? f rest := by
  intro pre
  induction pre with
  | nil => intro rest _; rfl
  | cons a pre ih =>
      intro rest h
      rw [List.cons_append, List.findSome?_cons]
      rw [h a (List.mem_cons_self _ _)]
      exact ih rest (fun x hx => h x (List.mem_cons_of_mem _ hx))

theorem hash_space_data (t : String) : ("# " ++ t).data = '#' :: ' ' :: t.data := by
  rw [String.data_append]
  rfl

/-- The heading regex matches `"# " ++ t` for nonempty `t`, and the
stripped group 1 is exactly the stripped `t`. -/
theorem headingGroup1_hash_space (t : String) (ht : t ≠ "") :
    ∃ g, headingGroup1 ("# " ++ t) = some g ∧ pyStrip g = pyStrip t := by
  have hdata := hash_space_data t
  have hdrop : ("# " ++ t).data.dropWhile pyIsSpace = '#' :: (' ' :: t.data) := by
    rw [hdata, List.dropWhile_cons, show pyIsSpace '#' = false from by decide]
    simp
  have hred : headingGroup1 ("# " ++ t) =
      (if ((' ' :: t.data).takeWhile pyIsSpace).length = 0 then none
       else if ((' ' :: t.data).takeWhile pyIsSpace).length < (' ' :: t.data).length then
         some ⟨(' ' :: t.data).drop (((' ' :: t.data).takeWhile pyIsSpace).length)⟩
       else if 2 ≤ ((' ' :: t.data).takeWhile pyIsSpace).length then
         some ⟨(' ' :: t.data).drop (((' ' :: t.data).takeWhile pyIsSpace).length - 1)⟩
       else none) := by
    unfold headingGroup1
    rw [hdrop]
    simp
  rw [hred]
  have htw : (' ' :: t.data).takeWhile pyIsSpace = ' ' :: t.data.takeWhile pyIsSpace := by
    rw [List.takeWhile_cons, show pyIsSpace ' ' = true from by decide]
    simp
  by_cases hall : ∀ c ∈ t.data, pyIsSpace c
  · -- the text after `"# "` is all whitespace: the engine backtracks and
    -- group 1 is a single whitespace character; both sides strip to `""`
    have htk : t.data.takeWhile pyIsSpace = t.data := List.takeWhile_eq_self_iff.mpr hall
    have hlen : 0 < t.data.length := List.length_pos.mpr (ne_empty_data ht)
    rw [htw, htk]
    simp only [List.length_cons]
    have h1 : ¬(t.data.length + 1 = 0) := by omega
    have h2 : ¬(t.data.length + 1 < t.data.length + 1) := by omega
    have h3 : 2 ≤ t.data.length + 1 := by omega
    rw [if_neg h1, if_neg h2, if_pos h3]
    refine ⟨_, rfl, ?_⟩
    have hsub : ∀ c ∈ (' ' :: t.data).drop (t.data.length + 1 - 1), pyIsSpace c := by
      intro c hc
      have := List.mem_of_mem_drop hc
      rcases List.mem_cons.mp this with h | h
      · rw [h]; decide
      · exact hall c h
    have hstrip1 : pyStrip ⟨(' ' :: t.data).drop (t.data.length + 1 - 1)⟩ = "" := by
      unfold pyStrip
      rw [string_data_mk]
      rw [List.dropWhile_eq_nil_iff.mpr hsub]
      rfl
    have hstrip2 : pyStrip t = "" := by
      unfold pyStrip
      rw [List.dropWhile_eq_nil_iff.mpr hall]
      rfl
    rw [hstrip1, hstrip2]
  · -- some non-whitespace exists: `(.+)` takes everything after the
    -- whitespace run, and stripping it equals stripping `t`
    push_neg at hall
    have hne : t.data.dropWhile pyIsSpace ≠ [] := by
      intro h
      obtain ⟨c, hc, hcs⟩ := hall
      have := List.dropWhile_eq_nil_iff.mp h c hc
      exact hcs this
    have hsplit : t.data.takeWhile pyIsSpace ++ t.data.dropWhile pyIsSpace = t.data :=
      List.takeWhile_append_dropWhile pyIsSpace t.data
    have hlt : (t.data.takeWhile pyIsSpace).length < t.data.length := by
      conv_rhs => rw [← hsplit]
      rw [List.length_append]
      have := List.length_pos.mpr hne
      omega
    rw [htw]
    simp only [List.length_cons]
    have h1 : ¬((t.data.takeWhile pyIsSpace).length + 1 = 0) := by omega
    have h2 : (t.data.takeWhile pyIsSpace).length + 1 < t.data.length + 1 := by omega
    rw [if_neg h1, if_pos h2]
    refine ⟨_, rfl, ?_⟩
    have hdrop2 : (' ' :: t.data).drop ((t.data.takeWhile pyIsSpace).length + 1) =
        t.data.dropWhile pyIsSpace := by
      have hd : List.drop (t.data.takeWhile pyIsSpace).length
          (t.data.takeWhile pyIsSpace ++ t.data.dropWhile pyIsSpace) =
          t.data.dropWhile pyIsSpace := List.drop_left _ _
      rw [List.drop_succ_cons, ← hd, hsplit]
    rw [hdrop2]
    unfold pyStrip
    rw [string_data_mk, dropWhile_dropWhile]

theorem append_middle_infix (a b c : String) : b.data <:+: (a ++ b ++ c).data :=
  ⟨a.data, c.data, by simp [String.data_append]⟩

/-! ## Claim C5 -/

/-- C5: for every document whose first heading-matching line is
`"# Title Text"` the derived title is `"Title Text"` with surrounding
whitespace trimmed, and for every document none of whose lines matches
the leading-level heading regex the derived title is the document's
filename without extension. -/
theorem C5_derived_title :
    (∀ (render : String → String) (ts : String) (mdPath : List String) (md_text : String),
        (∀ l ∈ pySplitlines md_text, headingGroup1 l = none) →
        (BuildSite.md_to_html render ts mdPath md_text).1 = pyStem (lastName mdPath)) ∧
    (∀ (render : String → String) (ts : String) (mdPath : List String) (md_text : String)
        (pre post : List String) (t : String),
        pySplitlines md_text = pre ++ ("# " ++ t) :: post →
        (∀ l ∈ pre, headingGroup1 l = none) → t ≠ "" →
        (BuildSite.md_to_html render ts mdPath md_text).1 = pyStrip t) := by
  constructor
  · intro render ts mdPath md h
    show read_title_from_md md (pyStem (lastName mdPath)) = pyStem (lastName mdPath)
    unfold read_title_from_md
    rw [List.findSome?_eq_none_iff.mpr h]
  · intro render ts mdPath md pre post t hsplit hpre ht
    show read_title_from_md md (pyStem (lastName mdPath)) = pyStrip t
    unfold read_title_from_md
    rw [hsplit, findSome?_prefix_none _ pre _ hpre, List.findSome?_cons]
    obtain ⟨g, hg, hgs⟩ := headingGroup1_hash_space t ht
    rw [hg]
    exact hgs

/-- Witness for C5 at concrete documents: `"no heading here"` in
`untitled.md` derives the stem `"untitled"`, and a document whose second
line is `"#  Hello World "` derives `"Hello World"`. -/
theorem C5_derived_title_witness :
    (BuildSite.md_to_html (fun s => s) "TS" ["posts", "b", "untitled.md"] "no heading here").1 =
      "untitled" ∧
    (BuildSite.md_to_html (fun s => s) "TS" ["posts", "a", "note.md"]
        "intro\n#  Hello World \ntext").1 = "Hello World" := by
  constructor
  · have h := C5_derived_title.1 (fun s => s) "TS" ["posts", "b", "untitled.md"]
      "no heading here" (by decide)
    rw [h]
    decide
  · have h := C5_derived_title.2 (fun s => s) "TS" ["posts", "a", "note.md"]
      "intro\n#  Hello World \ntext" ["intro"] ["text"] " Hello World "
      (by decide) (by decide) (by decide)
    rw [h]
    decide

/-! ## Claim C9 -/

/-- C9: when the `posts/` directory does not exist, `build_posts_html`
returns an empty title map and performs no file writes (it does not
raise). -/
theorem C9_missing_root_renderer (render : String → String) (ts : String) :
    BuildSite.build_posts_html render ts none = ([], []) := rfl

/-! ## Claim C6 -/

/-- C6: when the `posts/` directory does not exist, the index builders
produce the minimal "not found" placeholder: `build_site.build_index`'s
tree is the placeholder and the written `index.html` embeds it, and
`gen_index.build_tree` returns the placeholder; in the embedding both
functions are total, so the run completes normally. -/
theorem C6_missing_root_index (titles : List (List String × String)) :
    BuildSite.tree_html titles none = "<p><b>posts/ が見つかりません。</b></p>" ∧
    "<p><b>posts/ が見つかりません。</b></p>".data <:+:
      (BuildSite.build_index titles none).data ∧
    GenIndex.build_tree none = "<p><b>posts/ が見つかりません。</b></p>" := by
  refine ⟨rfl, ?_, rfl⟩
  exact append_middle_infix BuildSite.indexShellPre
    (BuildSite.tree_html titles none) BuildSite.indexShellPost

/-! ## Claim C7 -/

theorem forall2_map_map {α β : Type} (P : β → β → Prop) (f g : α → β) :
    ∀ l : List α, (∀ x ∈ l, P (f x) (g x)) → List.Forall₂ P (l.map f) (l.map g) := by
  intro l
  induction l with
  | nil => intro _; exact List.Forall₂.nil
  | cons a l ih =>
      intro h
      exact List.Forall₂.cons (h a (List.mem_cons_self _ _))
        (ih (fun x hx => h x (List.mem_cons_of_mem _ hx)))

/-- The title map does not depend on the timestamp. -/
theorem titles_ts_independent (render : String → String) (ts₁ ts₂ : String)
    (root : Option (List Fs)) :
    (BuildSite.build_posts_html render ts₁ root).1 =
      (BuildSite.build_posts_html render ts₂ root).1 := by
  unfold BuildSite.build_posts_html
  exact List.map_congr_left (fun pc _ => rfl)

/-- C7: two runs of the full pipeline on the same source tree write the
same list of paths, and each written file is byte-identical across the
runs except that a rendered page's generation-timestamp line carries the
run's own timestamp; the index file is byte-identical outright. -/
theorem C7_idempotent_modulo_timestamp (render : String → String)
    (root : Option (List Fs)) (ts₁ ts₂ : String) :
    List.Forall₂
      (fun a b => a.1 = b.1 ∧
        (a.2 = b.2 ∨ ∃ A B : String,
            a.2 = A ++ BuildSite.generatedLine ts₁ ++ B ∧
            b.2 = A ++ BuildSite.generatedLine ts₂ ++ B))
      (BuildSite.mainWrites render ts₁ root) (BuildSite.mainWrites render ts₂ root) := by
  unfold BuildSite.mainWrites
  refine List.rel_append ?_ ?_
  · unfold BuildSite.build_posts_html
    refine forall2_map_map _ _ _ _ ?_
    intro pc _
    refine ⟨rfl, Or.inr ?_⟩
    refine ⟨BuildSite.pageBeforeTs (read_title_from_md pc.2 (pyStem (lastName pc.1)))
      (posixJoin pc.1) (render pc.2), BuildSite.pageAfterTs, rfl, rfl⟩
  · refine List.Forall₂.cons ⟨rfl, Or.inl ?_⟩ List.Forall₂.nil
    rw [titles_ts_independent render ts₁ ts₂ root]

/-! ## Claim C10 -/

theorem escChar_no_raw (c₀ c : Char) (h : c₀ = '<' ∨ c₀ = '>' ∨ c₀ = '"') :
    c₀ ∉ (pyEscapeChar c).data := by
  unfold pyEscapeChar
  by_cases h1 : c = '&'
  · rw [if_pos h1]; rcases h with rfl | rfl | rfl <;> decide
  · rw [if_neg h1]
    by_cases h2 : c = '<'
    · rw [if_pos h2]; rcases h with rfl | rfl | rfl <;> decide
    · rw [if_neg h2]
      by_cases h3 : c = '>'
      · rw [if_pos h3]; rcases h with rfl | rfl | rfl <;> decide
      · rw [if_neg h3]
        by_cases h4 : c = '"'
        · rw [if_pos h4]; rcases h with rfl | rfl | rfl <;> decide
        · rw [if_neg h4]
          by_cases h5 : c = '\''
          · rw [if_pos h5]; rcases h with rfl | rfl | rfl <;> decide
          · rw [if_neg h5]
            intro hm
            have hc : c₀ = c := by
              have : (String.singleton c).data = [c] := rfl
              rw [this] at hm
              simpa using hm
            rcases h with rfl | rfl | rfl
            · exact h2 hc.symm
            · exact h3 hc.symm
            · exact h4 hc.symm

theorem escapeData_no_raw (c₀ : Char) (h : c₀ = '<' ∨ c₀ = '>' ∨ c₀ = '"') :
    ∀ l : List Char, c₀ ∉ pyEscapeData l := by
  intro l
  induction l with
  | nil => simp [pyEscapeData]
  | cons c rest ih =>
      show c₀ ∉ (pyEscapeChar c).data ++ pyEscapeData rest
      intro hm
      rcases List.mem_append.mp hm with h1 | h1
      · exact escChar_no_raw c₀ c h h1
      · exact ih h1

set_option maxRecDepth 100000 in
/-- C10 counterexample: for the document `posts/c/a<b.md`, the rendered
page contains the document's relative path *unescaped* inside the hint
element — the raw `<` of the filename appears in the output — and does
not contain its escaped form, so not every source-derived string
interpolated into the generated HTML is passed through HTML escaping. -/
theorem C10_counterexample :
    hasInfix ("<div class=\"hint\">posts/c/a<b.md</div>".data)
      ((BuildSite.md_to_html (fun _ => "<p>x</p>") "TS"
        ["posts", "c", "a<b.md"] "# T\nbody").2).data = true ∧
    hasInfix ("posts/c/a&lt;b.md".data)
      ((BuildSite.md_to_html (fun _ => "<p>x</p>") "TS"
        ["posts", "c", "a<b.md"] "# T\nbody").2).data = false := by
  constructor
  · decide
  · decide

/-- C10 amended: every source-derived string interpolated into the
generated HTML *except the relative-path hint of a rendered page* is
passed through HTML escaping: the escape function never emits a raw `<`,
`>` or `"`; the page template wraps the escaped title in `<title>` and
`<h1>` but interpolates the raw path into the hint element; and every
index entry line and section label of both index builders interpolates
only escaped hrefs, labels, filenames and directory names. -/
theorem C10_amended_escaping :
    (∀ s : String, '<' ∉ (pyHtmlEscape s).data ∧ '>' ∉ (pyHtmlEscape s).data ∧
        '"' ∉ (pyHtmlEscape s).data) ∧
    (∀ title mdPosix body ts : String, ∃ A B C D : String,
        BuildSite.pageHtml title mdPosix body ts =
          A ++ ("<title>" ++ BuildSite.esc title ++ "</title>") ++ B ++
            ("<h1>" ++ BuildSite.esc title ++ "</h1>") ++ C ++
            ("<div class=\"hint\">" ++ mdPosix ++ "</div>") ++ D) ∧
    (∀ (indent : String) (e : BuildSite.Entry), BuildSite.entryLine indent e =
        indent ++ "  <li><a href=\"" ++ BuildSite.esc e.href ++ "\">" ++
          BuildSite.esc e.label ++ "</a> <span class=\"small\">(" ++
          BuildSite.esc e.fname ++ ")</span></li>") ∧
    (∀ indent n : String, BuildSite.blockOpen indent n =
        [indent ++ "<li><details open>",
         indent ++ "<summary><b>" ++ BuildSite.esc n ++ "/</b></summary>",
         indent ++ "<ul>"]) ∧
    (∀ (indent : String) (e : GenIndex.GEntry), GenIndex.entryLine indent e =
        indent ++ "  <li><a href=\"" ++ GenIndex.safe e.href ++ "\">" ++
          GenIndex.safe e.label ++ "</a></li>") := by
  refine ⟨?_, ?_, fun indent e => rfl, fun indent n => rfl, fun indent e => rfl⟩
  · intro s
    exact ⟨escapeData_no_raw '<' (Or.inl rfl) s.data,
      escapeData_no_raw '>' (Or.inr (Or.inl rfl)) s.data,
      escapeData_no_raw '"' (Or.inr (Or.inr rfl)) s.data⟩
  · intro title mdPosix body ts
    refine ⟨"<!doctype html>\n<html lang=\"ja\">\n<head>\n  <meta charset=\"utf-8\">\n  <meta name=\"viewport\" content=\"width=device-width, initial-scale=1\">\n  ",
      "\n  <style>" ++ BuildSite.BASE_CSS ++
        "</style>\n</head>\n<body>\n  <p class=\"small\"><a href=\"" ++
        BuildSite.back_href ++ "\">← indexへ戻る</a></p>\n  ",
      "\n  ",
      "\n  <hr>\n  " ++ body ++ "\n  <hr>\n" ++ BuildSite.generatedLine ts ++
        BuildSite.pageAfterTs, ?_⟩
    show BuildSite.pageBeforeTs title mdPosix body ++ BuildSite.generatedLine ts ++
        BuildSite.pageAfterTs = _
    unfold BuildSite.pageBeforeTs
    rw [show ("<!doctype html>\n<html lang=\"ja\">\n<head>\n  <meta charset=\"utf-8\">\n  <meta name=\"viewport\" content=\"width=device-width, initial-scale=1\">\n  <title>" : String) =
        "<!doctype html>\n<html lang=\"ja\">\n<head>\n  <meta charset=\"utf-8\">\n  <meta name=\"viewport\" content=\"width=device-width, initial-scale=1\">\n  " ++ "<title>" from rfl,
      show ("</title>\n  <style>" : String) = "</title>" ++ "\n  <style>" from rfl,
      show ("\">← indexへ戻る</a></p>\n  <h1>" : String) =
        "\">← indexへ戻る</a></p>\n  " ++ "<h1>" from rfl,
      show ("</h1>\n  <div class=\"hint\">" : String) =
        "</h1>" ++ "\n  " ++ "<div class=\"hint\">" from rfl,
      show ("</div>\n  <hr>\n  " : String) = "</div>" ++ "\n  <hr>\n  " from rfl]
    simp only [String.append_assoc]

/-! ## Helper lemmas about discovery and the walks -/

theorem mem_sortedStr (a : String) (l : List String) :
    a ∈ BuildSite.sortedStr l ↔ a ∈ l :=
  (List.perm_insertionSort _ l).mem_iff

theorem sortedStr_nodup {l : List String} (h : l.Nodup) :
    (BuildSite.sortedStr l).Nodup :=
  ((List.perm_insertionSort _ l).nodup_iff).mpr h

theorem levelFilePaths_mem (fOk : String → Bool) (pre p : List String) (cs : List Fs) :
    p ∈ levelFilePaths fOk pre cs ↔
      ∃ f, f ∈ fileNames cs ∧ fOk f = true ∧ p = pre ++ [f] := by
  unfold levelFilePaths
  simp only [List.mem_map, mem_sortedStr, List.mem_filter]
  constructor
  · rintro ⟨f, ⟨h1, h2⟩, h3⟩
    exact ⟨f, h1, h2, h3.symm⟩
  · rintro ⟨f, h1, h2, h3⟩
    exact ⟨f, ⟨h1, h2⟩, h3.symm⟩

theorem fileNames_sublist : ∀ cs : List Fs, List.Sublist (fileNames cs) (cs.map Fs.name)
  | [] => List.Sublist.refl []
  | (.file n _) :: ts => (fileNames_sublist ts).cons₂ n
  | (.dir n _) :: ts => (fileNames_sublist ts).cons n

theorem dirNames_sublist : ∀ cs : List Fs, List.Sublist (dirNames cs) (cs.map Fs.name)
  | [] => List.Sublist.refl []
  | (.file n _) :: ts => (dirNames_sublist ts).cons n
  | (.dir n _) :: ts => (dirNames_sublist ts).cons₂ n

theorem nodupB_iff : ∀ l : List String, nodupB l = true ↔ l.Nodup := by
  intro l
  induction l with
  | nil => simp [nodupB]
  | cons a as ih => simp [nodupB, List.nodup_cons, ih]

theorem partsOk_iff (p : List String) :
    BuildSite.partsOk p = true ↔ ∀ s ∈ p, cleanPart s = true := by
  unfold BuildSite.partsOk cleanPart
  simp only [Bool.and_eq_true, Bool.not_eq_true', List.any_eq_false, Bool.not_eq_true]
  aesop

theorem exclude_site_not_md (f : String) (hf : pyEndsWith f ".md" = true) :
    BuildSite.EXCLUDE_DIRS.contains f = false := by
  have hend : ∀ m ∈ BuildSite.EXCLUDE_DIRS, pyEndsWith m ".md" = false := by decide
  by_contra h
  rw [Bool.not_eq_false] at h
  have hmem : f ∈ BuildSite.EXCLUDE_DIRS := by simpa using h
  have := hend f hmem
  rw [hf] at this
  simp at this

theorem lastName_append (d : List String) (f : String) : lastName (d ++ [f]) = f := by
  unfold lastName
  rw [List.getLastD_eq_getLast?, List.getLast?_concat]
  rfl

theorem stem_ne_empty {x : String} (h : pyStartsWith (x ++ ".md") "." = false) : x ≠ "" := by
  rintro rfl
  exact absurd h (by decide)

theorem exclude_gen_not_listed (f : String)
    (hf : GenIndex.EXTS.contains (pyNameSuffix f) = true) :
    GenIndex.EXCLUDE_DIRS.contains f = false := by
  have hm : ∀ m ∈ GenIndex.EXCLUDE_DIRS,
      GenIndex.EXTS.contains (pyNameSuffix m) = false := by decide
  by_contra h
  rw [Bool.not_eq_false] at h
  have hmem : f ∈ GenIndex.EXCLUDE_DIRS := by simpa using h
  have := hm f hmem
  rw [hf] at this
  simp at this

theorem good_md_parts {f : String} (hgood : goodNameB f = true)
    (hmd : pyEndsWith f ".md" = true) (hhid : pyStartsWith f "." = false) :
    ∃ x : String, f = x ++ ".md" ∧ x ≠ "" ∧ goodNameB (x ++ ".html") = true := by
  obtain ⟨x, rfl⟩ := (pyEndsWith_md_iff f).mp hmd
  refine ⟨x, rfl, stem_ne_empty hhid, ?_⟩
  rw [goodNameB_iff] at hgood ⊢
  constructor
  · intro he
    have := congrArg String.data he
    rw [String.data_append] at this
    simp at this
  · intro hm
    rw [String.data_append] at hm
    rcases List.mem_append.mp hm with h | h
    · exact hgood.2 (by rw [String.data_append]; exact List.mem_append_left _ h)
    · revert h
      decide

theorem htmlDest_md (q : List String) (x : String) (hx : x ≠ "") :
    htmlDest (q ++ [x ++ ".md"]) = q ++ [x ++ ".html"] := by
  unfold htmlDest
  rw [mapLast_concat, pyWithSuffix_md x hx]

theorem destHref_inj {q₁ q₂ : List String} {x₁ x₂ : String}
    (hg₁ : ∀ s ∈ q₁ ++ [x₁ ++ ".html"], goodNameB s = true)
    (hg₂ : ∀ s ∈ q₂ ++ [x₂ ++ ".html"], goodNameB s = true)
    (h : posixJoin (q₁ ++ [x₁ ++ ".html"]) = posixJoin (q₂ ++ [x₂ ++ ".html"])) :
    q₁ = q₂ ∧ x₁ = x₂ := by
  have hj := posixJoin_inj _ _ hg₁ hg₂ h
  rw [← List.concat_eq_append, ← List.concat_eq_append] at hj
  obtain ⟨h1, h2⟩ := List.concat_inj.mp hj
  refine ⟨h1, ?_⟩
  have hd := congrArg String.data h2
  rw [String.data_append, String.data_append] at hd
  exact String.ext (List.append_inj_left' hd rfl)

theorem rglobPaths_prefix : ∀ (cs : List Fs) (pre p : List String),
    p ∈ rglobPaths pre cs → ∃ q, p = pre ++ q ∧ q ≠ [] := by
  intro cs
  match cs with
  | [] => intro pre p h; simp [rglobPaths] at h
  | (.file n c) :: ts =>
      intro pre p h
      simp only [rglobPaths, List.mem_append] at h
      rcases h with h | h
      · refine ⟨[n], ?_, by simp⟩
        cases hn : pyEndsWith n ".md" <;> rw [hn] at h <;> simp at h
        exact h
      · exact rglobPaths_prefix ts pre p h
  | (.dir n cs') :: ts =>
      intro pre p h
      simp only [rglobPaths, List.mem_append] at h
      rcases h with h | h
      · obtain ⟨q, hq, hne⟩ := rglobPaths_prefix cs' (pre ++ [n]) p h
        exact ⟨n :: q, by simp [hq], by simp⟩
      · exact rglobPaths_prefix ts pre p h

theorem rglobMd_map_fst : ∀ (cs : List Fs) (pre : List String),
    (BuildSite.rglobMd pre cs).map Prod.fst = rglobPaths pre cs := by
  intro cs
  match cs with
  | [] => intro pre; simp [BuildSite.rglobMd, rglobPaths]
  | (.file n c) :: ts =>
      intro pre
      simp only [BuildSite.rglobMd, rglobPaths, List.map_append]
      rw [rglobMd_map_fst ts pre]
      cases hn : pyEndsWith n ".md" <;> simp
  | (.dir n cs') :: ts =>
      intro pre
      simp only [BuildSite.rglobMd, rglobPaths, List.map_append]
      rw [rglobMd_map_fst cs' (pre ++ [n]), rglobMd_map_fst ts pre]

theorem rglob_mem_split : ∀ (cs : List Fs) (pre p : List String),
    p ∈ rglobPaths pre cs ↔
      (∃ f, f ∈ fileNames cs ∧ pyEndsWith f ".md" = true ∧ p = pre ++ [f]) ∨
      (∃ n cs', (Fs.dir n cs') ∈ cs ∧ p ∈ rglobPaths (pre ++ [n]) cs') := by
  intro cs
  induction cs with
  | nil => intro pre p; simp [rglobPaths, fileNames]
  | cons t ts ih =>
      intro pre p
      cases t with
      | file n c =>
          simp only [rglobPaths, fileNames, List.mem_append]
          rw [ih pre p]
          constructor
          · rintro (h | h | h)
            · cases hn : pyEndsWith n ".md" <;> rw [hn] at h <;> simp at h
              exact Or.inl ⟨n, List.mem_cons_self _ _, hn, h⟩
            · obtain ⟨f, hf1, hf2, hf3⟩ := h
              exact Or.inl ⟨f, List.mem_cons_of_mem _ hf1, hf2, hf3⟩
            · obtain ⟨m, cs', hm, hp⟩ := h
              exact Or.inr ⟨m, cs', List.mem_cons_of_mem _ hm, hp⟩
          · rintro (⟨f, hf1, hf2, hf3⟩ | ⟨m, cs', hm, hp⟩)
            · rcases List.mem_cons.mp hf1 with rfl | hf1
              · exact Or.inl (by rw [hf2]; simp [hf3])
              · exact Or.inr (Or.inl ⟨f, hf1, hf2, hf3⟩)
            · rcases List.mem_cons.mp hm with heq | hm
              · exact absurd heq (by simp)
              · exact Or.inr (Or.inr ⟨m, cs', hm, hp⟩)
      | dir n cs' =>
          simp only [rglobPaths, fileNames, List.mem_append]
          rw [ih pre p]
          constructor
          · rintro (h | h | h)
            · exact Or.inr ⟨n, cs', List.mem_cons_self _ _, h⟩
            · obtain ⟨f, hf1, hf2, hf3⟩ := h
              exact Or.inl ⟨f, hf1, hf2, hf3⟩
            · obtain ⟨m, cs'', hm, hp⟩ := h
              exact Or.inr ⟨m, cs'', List.mem_cons_of_mem _ hm, hp⟩
          · rintro (⟨f, hf1, hf2, hf3⟩ | ⟨m, cs'', hm, hp⟩)
            · exact Or.inr (Or.inl ⟨f, hf1, hf2, hf3⟩)
            · rcases List.mem_cons.mp hm with heq | hm
              · obtain ⟨rfl, rfl⟩ : m = n ∧ cs'' = cs' := by
                  injection heq with h1 h2
                  exact ⟨h1, h2⟩
                exact Or.inl hp
              · exact Or.inr (Or.inr ⟨m, cs'', hm, hp⟩)

theorem walkSub_mem (fOk dOk : String → Bool) : ∀ (cs : List Fs) (pre p : List String),
    p ∈ walkSubPaths fOk dOk pre cs ↔
      ∃ n cs', (Fs.dir n cs') ∈ cs ∧ dOk n = true ∧
        p ∈ walkFilePaths fOk dOk (pre ++ [n]) cs' := by
  intro cs
  induction cs with
  | nil => intro pre p; simp [walkSubPaths]
  | cons t ts ih =>
      intro pre p
      cases t with
      | file n c =>
          simp only [walkSubPaths]
          rw [ih pre p]
          constructor
          · rintro ⟨m, cs', hm, hd, hp⟩
            exact ⟨m, cs', List.mem_cons_of_mem _ hm, hd, hp⟩
          · rintro ⟨m, cs', hm, hd, hp⟩
            rcases List.mem_cons.mp hm with heq | hm
            · exact absurd heq (by simp)
            · exact ⟨m, cs', hm, hd, hp⟩
      | dir n cs' =>
          simp only [walkSubPaths, List.mem_append]
          rw [ih pre p]
          constructor
          · rintro (h | h)
            · cases hd : dOk n <;> rw [hd] at h
              · simp at h
              · exact ⟨n, cs', List.mem_cons_self _ _, hd, h⟩
            · obtain ⟨m, cs'', hm, hdm, hp⟩ := h
              exact ⟨m, cs'', List.mem_cons_of_mem _ hm, hdm, hp⟩
          · rintro ⟨m, cs'', hm, hdm, hp⟩
            rcases List.mem_cons.mp hm with heq | hm
            · obtain ⟨rfl, rfl⟩ : m = n ∧ cs'' = cs' := by
                injection heq with h1 h2
                exact ⟨h1, h2⟩
              exact Or.inl (by rw [hdm]; exact hp)
            · exact Or.inr ⟨m, cs'', hm, hdm, hp⟩

theorem walk_mem_split (fOk dOk : String → Bool) (cs : List Fs) (pre p : List String) :
    p ∈ walkFilePaths fOk dOk pre cs ↔
      (∃ f, f ∈ fileNames cs ∧ fOk f = true ∧ p = pre ++ [f]) ∨
      (∃ n cs', (Fs.dir n cs') ∈ cs ∧ dOk n = true ∧
        p ∈ walkFilePaths fOk dOk (pre ++ [n]) cs') := by
  unfold walkFilePaths
  rw [List.mem_append, levelFilePaths_mem, walkSub_mem]
  rfl

theorem dirOk_eq_clean (n : String) : BuildSite.dirOk n = cleanPart n := by
  unfold BuildSite.dirOk cleanPart
  cases h1 : pyStartsWith n "." <;> cases h2 : BuildSite.EXCLUDE_DIRS.contains n <;>
    simp [h1, h2]

theorem fileOk_clean {f : String} (h : BuildSite.fileOk f = true) : cleanPart f = true := by
  unfold BuildSite.fileOk at h
  rw [Bool.and_eq_true] at h
  have hc := exclude_site_not_md f h.1
  unfold cleanPart
  rw [Bool.and_eq_true]
  refine ⟨h.2, ?_⟩
  rw [hc]
  rfl

theorem fileOk_of_clean {f : String} (hmd : pyEndsWith f ".md" = true)
    (hc : cleanPart f = true) : BuildSite.fileOk f = true := by
  unfold cleanPart at hc
  rw [Bool.and_eq_true] at hc
  unfold BuildSite.fileOk
  rw [Bool.and_eq_true]
  exact ⟨hmd, hc.1⟩

/-- The `build_index` walk lists exactly the `rglob` hits whose relative
path consists of non-hidden, non-excluded parts: the two discovery rules
of `build_site.py` agree. -/
theorem site_walk_mem (cs : List Fs) : ∀ (pre p : List String),
    p ∈ walkFilePaths BuildSite.fileOk BuildSite.dirOk pre cs ↔
      (p ∈ rglobPaths pre cs ∧ ∃ q, p = pre ++ q ∧ ∀ s ∈ q, cleanPart s = true) := by
  intro pre p
  rw [walk_mem_split, rglob_mem_split]
  constructor
  · rintro (⟨f, hf, hok, rfl⟩ | ⟨n, cs', hmem, hd, hp⟩)
    · have h' := hok
      unfold BuildSite.fileOk at h'
      rw [Bool.and_eq_true] at h'
      refine ⟨Or.inl ⟨f, hf, h'.1, rfl⟩, ⟨[f], rfl, ?_⟩⟩
      intro s hs
      rw [List.mem_singleton] at hs
      subst hs
      exact fileOk_clean hok
    · obtain ⟨hrg, q', hpq, hq'⟩ := (site_walk_mem cs' (pre ++ [n]) p).mp hp
      refine ⟨Or.inr ⟨n, cs', hmem, hrg⟩, ⟨n :: q', ?_, ?_⟩⟩
      · rw [hpq]
        simp
      · intro s hs
        rcases List.mem_cons.mp hs with rfl | hs
        · rw [← dirOk_eq_clean]
          exact hd
        · exact hq' s hs
  · rintro ⟨h1 | h1, q, rfl, hq⟩
    · obtain ⟨f, hf, hmd, heq⟩ := h1
      have hq' : q = [f] := List.append_cancel_left heq
      subst hq'
      exact Or.inl ⟨f, hf,
        fileOk_of_clean hmd (hq f (List.mem_singleton_self f)), rfl⟩
    · obtain ⟨n, cs', hmem, hp⟩ := h1
      obtain ⟨q₂, hpq, hne⟩ := rglobPaths_prefix cs' (pre ++ [n]) _ hp
      have hqd : q = n :: q₂ := by
        have h2 : pre ++ q = pre ++ (n :: q₂) := by
          rw [hpq]
          simp
        exact List.append_cancel_left h2
      subst hqd
      have hdn : BuildSite.dirOk n = true := by
        rw [dirOk_eq_clean]
        exact hq n (List.mem_cons_self _ _)
      refine Or.inr ⟨n, cs', hmem, hdn, ?_⟩
      refine (site_walk_mem cs' (pre ++ [n]) (pre ++ n :: q₂)).mpr ⟨?_, ⟨q₂, by simp, ?_⟩⟩
      · rw [show pre ++ n :: q₂ = (pre ++ [n]) ++ q₂ by simp] at hp ⊢
        exact hp
      · intro s hs
        exact hq s (List.mem_cons_of_mem _ hs)
termination_by sizeOf cs
decreasing_by
  all_goals
    have hlt := List.sizeOf_lt_of_mem hmem
    simp only [Fs.dir.sizeOf_spec] at hlt
    omega

theorem processed_mem (cs : List Fs) (p : List String) :
    p ∈ (BuildSite.processedDocs (some cs)).map Prod.fst ↔
      p ∈ rglobPaths ["posts"] cs ∧ BuildSite.partsOk p = true := by
  unfold BuildSite.processedDocs BuildSite.sortByPath
  constructor
  · intro hp
    rw [List.mem_map] at hp
    obtain ⟨pc, hpc, rfl⟩ := hp
    rw [List.mem_filter] at hpc
    obtain ⟨hmem, hok⟩ := hpc
    refine ⟨?_, hok⟩
    rw [← rglobMd_map_fst]
    exact List.mem_map_of_mem _ ((List.perm_insertionSort _ _).mem_iff.mp hmem)
  · rintro ⟨hrg, hok⟩
    rw [← rglobMd_map_fst, List.mem_map] at hrg
    obtain ⟨pc, hpc, rfl⟩ := hrg
    rw [List.mem_map]
    refine ⟨pc, ?_, rfl⟩
    rw [List.mem_filter]
    exact ⟨(List.perm_insertionSort _ _).mem_iff.mpr hpc, hok⟩

theorem site_dirEntries_paths (titles : List (List String × String))
    (pre : List String) (cs : List Fs) :
    (BuildSite.dirEntries titles pre cs).map BuildSite.Entry.mdPath =
      levelFilePaths BuildSite.fileOk pre cs := by
  unfold BuildSite.dirEntries levelFilePaths
  rw [List.map_map]
  rfl

theorem site_walkEntries_paths (titles : List (List String × String)) :
    ∀ (cs : List Fs) (pre : List String),
    (BuildSite.walkEntries titles pre cs).map BuildSite.Entry.mdPath =
      walkSubPaths BuildSite.fileOk BuildSite.dirOk pre cs := by
  intro cs
  match cs with
  | [] => intro pre; simp [BuildSite.walkEntries, walkSubPaths]
  | (.file n c) :: ts =>
      intro pre
      simp only [BuildSite.walkEntries, walkSubPaths]
      exact site_walkEntries_paths titles ts pre
  | (.dir n cs') :: ts =>
      intro pre
      simp only [BuildSite.walkEntries, walkSubPaths, List.map_append]
      rw [site_walkEntries_paths titles ts pre]
      cases hd : BuildSite.dirOk n
      · simp
      · simp [List.map_append, site_dirEntries_paths,
          site_walkEntries_paths titles cs' (pre ++ [n])]

theorem site_indexEntries_paths (titles : List (List String × String)) (cs : List Fs) :
    (BuildSite.indexEntries titles cs).map BuildSite.Entry.mdPath =
      walkFilePaths BuildSite.fileOk BuildSite.dirOk ["posts"] cs := by
  unfold BuildSite.indexEntries walkFilePaths
  rw [List.map_append, site_dirEntries_paths, site_walkEntries_paths]

theorem gen_dirEntries_paths (pre : List String) (cs : List Fs) :
    (GenIndex.dirEntries pre cs).map GenIndex.GEntry.path =
      levelFilePaths GenIndex.fileOk pre cs := by
  unfold GenIndex.dirEntries levelFilePaths
  rw [List.map_map]
  rfl

theorem gen_walkEntries_paths : ∀ (cs : List Fs) (pre : List String),
    (GenIndex.walkEntries pre cs).map GenIndex.GEntry.path =
      walkSubPaths GenIndex.fileOk GenIndex.dirOk pre cs := by
  intro cs
  match cs with
  | [] => intro pre; simp [GenIndex.walkEntries, walkSubPaths]
  | (.file n c) :: ts =>
      intro pre
      simp only [GenIndex.walkEntries, walkSubPaths]
      exact gen_walkEntries_paths ts pre
  | (.dir n cs') :: ts =>
      intro pre
      simp only [GenIndex.walkEntries, walkSubPaths, List.map_append]
      rw [gen_walkEntries_paths ts pre]
      cases hd : GenIndex.dirOk n
      · simp
      · simp [List.map_append, gen_dirEntries_paths,
          gen_walkEntries_paths cs' (pre ++ [n])]

theorem gen_indexEntries_paths (cs : List Fs) :
    (GenIndex.indexEntries cs).map GenIndex.GEntry.path =
      walkFilePaths GenIndex.fileOk GenIndex.dirOk ["posts"] cs := by
  unfold GenIndex.indexEntries walkFilePaths
  rw [List.map_append, gen_dirEntries_paths, gen_walkEntries_paths]

theorem site_entry_shape (titles : List (List String × String)) :
    ∀ (cs : List Fs) (pre : List String) (e : BuildSite.Entry),
    e ∈ BuildSite.walkEntries titles pre cs →
    ∃ d f, e = BuildSite.mkEntry titles d f := by
  intro cs
  match cs with
  | [] => intro pre e he; simp [BuildSite.walkEntries] at he
  | (.file n c) :: ts =>
      intro pre e he
      simp only [BuildSite.walkEntries] at he
      exact site_entry_shape titles ts pre e he
  | (.dir n cs') :: ts =>
      intro pre e he
      simp only [BuildSite.walkEntries, List.mem_append] at he
      rcases he with he | he
      · cases hd : BuildSite.dirOk n <;> rw [hd] at he
        · simp at he
        · rcases List.mem_append.mp (by simpa using he) with he | he
          · obtain ⟨f, _, rfl⟩ := List.mem_map.mp he
            exact ⟨pre ++ [n], f, rfl⟩
          · exact site_entry_shape titles cs' (pre ++ [n]) e he
      · exact site_entry_shape titles ts pre e he

theorem site_indexEntry_shape (titles : List (List String × String)) (cs : List Fs)
    (e : BuildSite.Entry) (he : e ∈ BuildSite.indexEntries titles cs) :
    ∃ d f, e = BuildSite.mkEntry titles d f := by
  unfold BuildSite.indexEntries at he
  rcases List.mem_append.mp he with he | he
  · obtain ⟨f, _, rfl⟩ := List.mem_map.mp he
    exact ⟨["posts"], f, rfl⟩
  · exact site_entry_shape titles cs ["posts"] e he

theorem site_hrefs_eq (titles : List (List String × String)) (cs : List Fs) :
    (BuildSite.indexEntries titles cs).map BuildSite.Entry.href =
      ((BuildSite.indexEntries titles cs).map BuildSite.Entry.mdPath).map
        (fun p => posixJoin (htmlDest p)) := by
  rw [List.map_map]
  refine List.map_congr_left ?_
  intro e he
  obtain ⟨d, f, rfl⟩ := site_indexEntry_shape titles cs e he
  rfl

theorem walkSub_shape (fOk dOk : String → Bool) : ∀ (cs : List Fs) (pre p : List String),
    p ∈ walkSubPaths fOk dOk pre cs →
    ∃ n ds f, p = pre ++ n :: (ds ++ [f]) ∧ n ∈ dirNames cs ∧ dOk n = true ∧
      (∀ d ∈ ds, dOk d = true) ∧ fOk f = true := by
  intro cs
  match cs with
  | [] => intro pre p h; simp [walkSubPaths] at h
  | (.file m c) :: ts =>
      intro pre p h
      simp only [walkSubPaths] at h
      obtain ⟨n, ds, f, h1, h2, h3, h4, h5⟩ := walkSub_shape fOk dOk ts pre p h
      exact ⟨n, ds, f, h1, h2, h3, h4, h5⟩
  | (.dir n cs') :: ts =>
      intro pre p h
      simp only [walkSubPaths, List.mem_append] at h
      rcases h with h | h
      · cases hd : dOk n <;> rw [hd] at h
        · simp at h
        · rw [if_pos rfl] at h
          rcases List.mem_append.mp h with h | h
          · obtain ⟨f, hf1, hf2, hf3⟩ := (levelFilePaths_mem fOk (pre ++ [n]) p cs').mp h
            refine ⟨n, [], f, by simp [hf3], List.mem_cons_self _ _, hd, by simp, hf2⟩
          · obtain ⟨m, ds, f, h1, _, h3, h4, h5⟩ := walkSub_shape fOk dOk cs' (pre ++ [n]) p h
            refine ⟨n, m :: ds, f, ?_, List.mem_cons_self _ _, hd, ?_, h5⟩
            · rw [h1]
              simp
            · intro d hdm
              rcases List.mem_cons.mp hdm with rfl | hdm
              · exact h3
              · exact h4 d hdm
      · obtain ⟨m, ds, f, h1, h2, h3, h4, h5⟩ := walkSub_shape fOk dOk ts pre p h
        exact ⟨m, ds, f, h1, List.mem_cons_of_mem _ h2, h3, h4, h5⟩

theorem walk_shape (fOk dOk : String → Bool) (cs : List Fs) (pre p : List String)
    (h : p ∈ walkFilePaths fOk dOk pre cs) :
    ∃ ds f, p = pre ++ ds ++ [f] ∧ (∀ d ∈ ds, dOk d = true) ∧ fOk f = true := by
  unfold walkFilePaths at h
  rcases List.mem_append.mp h with h | h
  · obtain ⟨f, hf1, hf2, hf3⟩ := (levelFilePaths_mem fOk pre p cs).mp h
    exact ⟨[], f, by simp [hf3], by simp, hf2⟩
  · obtain ⟨n, ds, f, h1, _, h3, h4, h5⟩ := walkSub_shape fOk dOk cs pre p h
    refine ⟨n :: ds, f, by rw [h1]; simp, ?_, h5⟩
    intro d hdm
    rcases List.mem_cons.mp hdm with rfl | hdm
    · exact h3
    · exact h4 d hdm

theorem wfEach_fileNames_good : ∀ cs : List Fs, wfEach cs = true →
    ∀ n ∈ fileNames cs, goodNameB n = true := by
  intro cs
  induction cs with
  | nil => intro _ n hn; simp [fileNames] at hn
  | cons t ts ih =>
      intro hwf n hn
      cases t with
      | file m c =>
          simp only [wfEach, Bool.and_eq_true] at hwf
          rcases List.mem_cons.mp hn with rfl | hn
          · exact hwf.1
          · exact ih hwf.2 n hn
      | dir m cs' =>
          simp only [wfEach, Bool.and_eq_true] at hwf
          exact ih hwf.2 n hn

theorem walkSub_good (fOk dOk : String → Bool) : ∀ (cs : List Fs) (pre p : List String),
    wfEach cs = true → p ∈ walkSubPaths fOk dOk pre cs →
    ∃ q, p = pre ++ q ∧ ∀ s ∈ q, goodNameB s = true := by
  intro cs
  match cs with
  | [] => intro pre p _ h; simp [walkSubPaths] at h
  | (.file m c) :: ts =>
      intro pre p hwf h
      simp only [wfEach, Bool.and_eq_true] at hwf
      simp only [walkSubPaths] at h
      exact walkSub_good fOk dOk ts pre p hwf.2 h
  | (.dir n cs') :: ts =>
      intro pre p hwf h
      simp only [wfEach, Bool.and_eq_true] at hwf
      obtain ⟨⟨⟨⟨hgn, hmd⟩, hnd⟩, hwcs'⟩, hwts⟩ := hwf
      simp only [walkSubPaths, List.mem_append] at h
      rcases h with h | h
      · cases hd : dOk n <;> rw [hd] at h
        · simp at h
        · rw [if_pos rfl] at h
          rcases List.mem_append.mp h with h | h
          · obtain ⟨f, hf1, hf2, hf3⟩ := (levelFilePaths_mem fOk (pre ++ [n]) p cs').mp h
            refine ⟨[n, f], by simp [hf3], ?_⟩
            intro s hs
            rcases List.mem_cons.mp hs with rfl | hs
            · exact hgn
            · rcases List.mem_cons.mp hs with rfl | hs
              · exact wfEach_fileNames_good cs' hwcs' s hf1
              · simp at hs
          · obtain ⟨q, h1, hq⟩ := walkSub_good fOk dOk cs' (pre ++ [n]) p hwcs' h
            refine ⟨n :: q, by rw [h1]; simp, ?_⟩
            intro s hs
            rcases List.mem_cons.mp hs with rfl | hs
            · exact hgn
            · exact hq s hs
      · exact walkSub_good fOk dOk ts pre p hwts h

theorem walk_good (fOk dOk : String → Bool) (cs : List Fs) (pre p : List String)
    (hwf : wfEach cs = true) (h : p ∈ walkFilePaths fOk dOk pre cs) :
    ∃ q, p = pre ++ q ∧ ∀ s ∈ q, goodNameB s = true := by
  unfold walkFilePaths at h
  rcases List.mem_append.mp h with h | h
  · obtain ⟨f, hf1, hf2, hf3⟩ := (levelFilePaths_mem fOk pre p cs).mp h
    refine ⟨[f], by simp [hf3], ?_⟩
    intro s hs
    rcases List.mem_cons.mp hs with rfl | hs
    · exact wfEach_fileNames_good cs hwf s hf1
    · simp at hs
  · exact walkSub_good fOk dOk cs pre p hwf h

theorem level_nodup (fOk : String → Bool) (pre : List String) (cs : List Fs)
    (hnd : nodupB (cs.map Fs.name) = true) : (levelFilePaths fOk pre cs).Nodup := by
  unfold levelFilePaths
  apply List.Nodup.map
  · intro a b hab
    have := List.append_cancel_left hab
    simpa using this
  · exact sortedStr_nodup
      (List.Nodup.filter _
        (List.Nodup.sublist (fileNames_sublist cs) ((nodupB_iff _).mp hnd)))

theorem level_length (fOk : String → Bool) (pre p : List String) (cs : List Fs)
    (h : p ∈ levelFilePaths fOk pre cs) : p.length = pre.length + 1 := by
  obtain ⟨f, _, _, rfl⟩ := (levelFilePaths_mem fOk pre p cs).mp h
  simp

theorem sub_length (fOk dOk : String → Bool) (cs : List Fs) (pre p : List String)
    (h : p ∈ walkSubPaths fOk dOk pre cs) : pre.length + 2 ≤ p.length := by
  obtain ⟨n, ds, f, rfl, _, _, _, _⟩ := walkSub_shape fOk dOk cs pre p h
  simp

theorem walkSub_nodup (fOk dOk : String → Bool) : ∀ (cs : List Fs) (pre : List String),
    nodupB (cs.map Fs.name) = true → wfEach cs = true →
    (walkSubPaths fOk dOk pre cs).Nodup := by
  intro cs
  match cs with
  | [] => intro pre _ _; simp [walkSubPaths]
  | (.file m c) :: ts =>
      intro pre hnd hwf
      simp only [List.map, nodupB, Bool.and_eq_true] at hnd
      simp only [wfEach, Bool.and_eq_true] at hwf
      simp only [walkSubPaths]
      exact walkSub_nodup fOk dOk ts pre hnd.2 hwf.2
  | (.dir n cs') :: ts =>
      intro pre hnd hwf
      simp only [List.map, nodupB, Bool.and_eq_true, Bool.not_eq_true'] at hnd
      obtain ⟨hnotin, hndts⟩ := hnd
      simp only [wfEach, Bool.and_eq_true] at hwf
      obtain ⟨⟨⟨⟨hgn, hmd⟩, hndcs'⟩, hwcs'⟩, hwts⟩ := hwf
      simp only [walkSubPaths]
      apply List.Nodup.append
      · cases hd : dOk n
        · simp
        · rw [if_pos rfl]
          apply List.Nodup.append
          · exact level_nodup fOk (pre ++ [n]) cs' hndcs'
          · exact walkSub_nodup fOk dOk cs' (pre ++ [n]) hndcs' hwcs'
          · intro p hp1 hp2
            have l1 := level_length fOk (pre ++ [n]) p cs' hp1
            have l2 := sub_length fOk dOk cs' (pre ++ [n]) p hp2
            omega
      · exact walkSub_nodup fOk dOk ts pre hndts hwts
      · intro p hp1 hp2
        cases hd : dOk n <;> rw [hd] at hp1
        · simp at hp1
        · rw [if_pos rfl] at hp1
          obtain ⟨ds, f, h1, _, _⟩ := walk_shape fOk dOk cs' (pre ++ [n]) p hp1
          obtain ⟨m, ds₂, f₂, h2, hm, _, _, _⟩ := walkSub_shape fOk dOk ts pre p hp2
          have e : pre ++ (n :: (ds ++ [f])) = pre ++ (m :: (ds₂ ++ [f₂])) := by
            rw [← h2, h1]
            simp
          have e2 := List.append_cancel_left e
          have hnm : n = m := by injection e2
          subst hnm
          have hmem2 : n ∈ List.map Fs.name ts := (dirNames_sublist ts).subset hm
          have : (List.map Fs.name ts).contains n = true := by
            rw [List.elem_iff]
            exact hmem2
          have hnotin' : (List.map Fs.name ts).contains n = false := hnotin
          rw [hnotin'] at this
          simp at this

theorem walk_nodup (fOk dOk : String → Bool) (cs : List Fs) (pre : List String)
    (hnd : nodupB (cs.map Fs.name) = true) (hwf : wfEach cs = true) :
    (walkFilePaths fOk dOk pre cs).Nodup := by
  unfold walkFilePaths
  apply List.Nodup.append
  · exact level_nodup fOk pre cs hnd
  · exact walkSub_nodup fOk dOk cs pre hnd hwf
  · intro p hp1 hp2
    have l1 := level_length fOk pre p cs hp1
    have l2 := sub_length fOk dOk cs pre p hp2
    omega

theorem gen_entry_shape : ∀ (cs : List Fs) (pre : List String) (g : GenIndex.GEntry),
    g ∈ GenIndex.walkEntries pre cs → ∃ d f, g = GenIndex.mkGEntry d f := by
  intro cs
  match cs with
  | [] => intro pre g hg; simp [GenIndex.walkEntries] at hg
  | (.file n c) :: ts =>
      intro pre g hg
      simp only [GenIndex.walkEntries] at hg
      exact gen_entry_shape ts pre g hg
  | (.dir n cs') :: ts =>
      intro pre g hg
      simp only [GenIndex.walkEntries, List.mem_append] at hg
      rcases hg with hg | hg
      · cases hd : GenIndex.dirOk n <;> rw [hd] at hg
        · simp at hg
        · rcases List.mem_append.mp (by simpa using hg) with hg | hg
          · obtain ⟨f, _, rfl⟩ := List.mem_map.mp hg
            exact ⟨pre ++ [n], f, rfl⟩
          · exact gen_entry_shape cs' (pre ++ [n]) g hg
      · exact gen_entry_shape ts pre g hg

theorem gen_indexEntry_shape (cs : List Fs) (g : GenIndex.GEntry)
    (hg : g ∈ GenIndex.indexEntries cs) : ∃ d f, g = GenIndex.mkGEntry d f := by
  unfold GenIndex.indexEntries at hg
  rcases List.mem_append.mp hg with hg | hg
  · obtain ⟨f, _, rfl⟩ := List.mem_map.mp hg
    exact ⟨["posts"], f, rfl⟩
  · exact gen_entry_shape cs ["posts"] g hg

/-- Every file path listed by `build_site`'s index walk has the form
`d ++ [x ++ ".md"]` with a nonempty stem and well-formed components. -/
theorem site_walk_member_form (cs : List Fs) (hwfe : wfEach cs = true)
    (p : List String)
    (h : p ∈ walkFilePaths BuildSite.fileOk BuildSite.dirOk ["posts"] cs) :
    ∃ d x, p = d ++ [x ++ ".md"] ∧ x ≠ "" ∧
      (∀ s ∈ d ++ [x ++ ".html"], goodNameB s = true) := by
  obtain ⟨ds, f, h1, _, hfOk⟩ := walk_shape _ _ cs ["posts"] p h
  obtain ⟨q, h2, hgq⟩ := walk_good _ _ cs ["posts"] p hwfe h
  have hq : q = ds ++ [f] := by
    have e : (["posts"] : List String) ++ q = ["posts"] ++ (ds ++ [f]) := by
      rw [← h2, h1]
      simp
    exact List.append_cancel_left e
  subst hq
  have hfg : goodNameB f = true :=
    hgq f (List.mem_append_right _ (List.mem_singleton_self f))
  have hfOk' := hfOk
  unfold BuildSite.fileOk at hfOk'
  rw [Bool.and_eq_true, Bool.not_eq_true'] at hfOk'
  obtain ⟨x, hfx, hxne, hxgood⟩ := good_md_parts hfg hfOk'.1 hfOk'.2
  refine ⟨"posts" :: ds, x, ?_, hxne, ?_⟩
  · rw [h1, hfx]
    simp
  · intro s hs
    rcases List.mem_append.mp hs with hs | hs
    · rcases List.mem_cons.mp hs with rfl | hs
      · decide
      · exact hgq s (List.mem_append_left _ hs)
    · rw [List.mem_singleton] at hs
      subst hs
      exact hxgood

/-- All parts of a path listed by `build_site`'s index walk are clean. -/
theorem site_walk_parts_clean (cs : List Fs) (p : List String)
    (h : p ∈ walkFilePaths BuildSite.fileOk BuildSite.dirOk ["posts"] cs) :
    ∀ s ∈ p, cleanPart s = true := by
  rw [site_walk_mem] at h
  obtain ⟨_, q, rfl, hq⟩ := h
  intro s hs
  rcases List.mem_append.mp hs with hs | hs
  · rw [List.mem_singleton] at hs
    subst hs
    decide
  · exact hq s hs

/-- All parts of a path listed by `gen_index`'s walk are non-hidden and
outside `gen_index.py`'s own exclusion set. -/
theorem gen_walk_parts (cs : List Fs) (p : List String)
    (h : p ∈ walkFilePaths GenIndex.fileOk GenIndex.dirOk ["posts"] cs) :
    ∀ s ∈ p, pyStartsWith s "." = false ∧ GenIndex.EXCLUDE_DIRS.contains s = false := by
  obtain ⟨ds, f, rfl, hds, hfOk⟩ := walk_shape _ _ cs ["posts"] p h
  have hf := hfOk
  unfold GenIndex.fileOk at hf
  rw [Bool.and_eq_true, Bool.not_eq_true'] at hf
  intro s hs
  rcases List.mem_append.mp hs with hs | hs
  · rcases List.mem_append.mp hs with hs | hs
    · rw [List.mem_singleton] at hs
      subst hs
      exact ⟨by decide, by decide⟩
    · have := hds s hs
      unfold GenIndex.dirOk at this
      rw [Bool.and_eq_true, Bool.not_eq_true', Bool.not_eq_true'] at this
      exact ⟨this.2, this.1⟩
  · rw [List.mem_singleton] at hs
    subst hs
    exact ⟨hf.2, exclude_gen_not_listed s hf.1⟩

/-! ## Claim C3 -/

/-- C3 counterexample: on the tree `posts/__pycache__/x.md` the renderer
of `build_site.py` processes nothing (its `EXCLUDE_DIRS` contains
`__pycache__`), while the standalone `gen_index.py` builder — whose
`EXCLUDE_DIRS` lacks `__pycache__` — lists that very file, so the two
passes do not apply identical exclusion rules and the sets differ. -/
theorem C3_counterexample :
    (BuildSite.processedDocs
        (some [Fs.dir "__pycache__" [Fs.file "x.md" "hi"]])).map Prod.fst = [] ∧
    (GenIndex.indexEntries [Fs.dir "__pycache__" [Fs.file "x.md" "hi"]]).map
        GenIndex.GEntry.path = [["posts", "__pycache__", "x.md"]] := by
  constructor
  · simp only [BuildSite.processedDocs, BuildSite.rglobMd]
    decide
  · simp only [GenIndex.indexEntries, GenIndex.walkEntries]
    decide

/-- C3 amended: within `build_site.py` the claim holds — the set of
documents `build_posts_html` renders equals the set of files its
`build_index` walk lists, for every source tree — but `gen_index.py`
applies a different exclusion set (no `__pycache__`) and a different
filename rule (`.md` and `.html`), so its listing can differ from the
rendered set (see the counterexample). -/
theorem C3_amended_same_sets (cs : List Fs) (titles : List (List String × String))
    (p : List String) :
    p ∈ (BuildSite.processedDocs (some cs)).map Prod.fst ↔
      p ∈ (BuildSite.indexEntries titles cs).map BuildSite.Entry.mdPath := by
  rw [site_indexEntries_paths, processed_mem, site_walk_mem]
  constructor
  · rintro ⟨hrg, hok⟩
    refine ⟨hrg, ?_⟩
    obtain ⟨q, hq, _⟩ := rglobPaths_prefix cs ["posts"] p hrg
    refine ⟨q, hq, ?_⟩
    intro s hs
    exact (partsOk_iff p).mp hok s (by rw [hq]; exact List.mem_append_right _ hs)
  · rintro ⟨hrg, q, rfl, hq⟩
    refine ⟨hrg, (partsOk_iff _).mpr ?_⟩
    intro s hs
    rcases List.mem_append.mp hs with hs | hs
    · rw [List.mem_singleton] at hs
      subst hs
      decide
    · exact hq s hs

/-! ## Claim C1 -/

/-- C1: for every document the renderer processes, the `build_site.py`
index contains exactly one link whose target is that document's
destination path (the relative path with `.md` swapped for `.html`). -/
theorem C1_index_completeness (cs : List Fs) (titles : List (List String × String))
    (p : List String) (hwf : wfRoot cs = true)
    (hp : p ∈ (BuildSite.processedDocs (some cs)).map Prod.fst) :
    ((BuildSite.indexEntries titles cs).map BuildSite.Entry.href).count
      (posixJoin (htmlDest p)) = 1 := by
  unfold wfRoot at hwf
  rw [Bool.and_eq_true] at hwf
  obtain ⟨hnd, hwfe⟩ := hwf
  rw [site_hrefs_eq, site_indexEntries_paths]
  have hmem : p ∈ walkFilePaths BuildSite.fileOk BuildSite.dirOk ["posts"] cs := by
    rw [site_walk_mem]
    rw [processed_mem] at hp
    obtain ⟨hrg, hok⟩ := hp
    obtain ⟨q, hq, _⟩ := rglobPaths_prefix cs ["posts"] p hrg
    exact ⟨hrg, ⟨q, hq, fun s hs =>
      (partsOk_iff p).mp hok s (by rw [hq]; exact List.mem_append_right _ hs)⟩⟩
  apply List.count_eq_one_of_mem
  · apply List.Nodup.map_on
    · intro a ha b hb hab
      obtain ⟨da, xa, rfl, hxa, hga⟩ := site_walk_member_form cs hwfe a ha
      obtain ⟨db, xb, rfl, hxb, hgb⟩ := site_walk_member_form cs hwfe b hb
      rw [htmlDest_md da xa hxa, htmlDest_md db xb hxb] at hab
      obtain ⟨rfl, rfl⟩ := destHref_inj hga hgb hab
      rfl
    · exact walk_nodup _ _ cs ["posts"] hnd hwfe
  · exact List.mem_map_of_mem _ hmem

/-- Witness for C1 on the tree containing the single document
`posts/y.md`: the index href list contains its destination exactly once. -/
theorem C1_index_completeness_witness :
    ((BuildSite.indexEntries [] [Fs.file "y.md" "hi"]).map BuildSite.Entry.href).count
      (posixJoin (htmlDest ["posts", "y.md"])) = 1 := by
  have h := C1_index_completeness [Fs.file "y.md" "hi"] [] ["posts", "y.md"]
    (by simp only [wfRoot, wfEach]; decide)
    (by simp only [BuildSite.processedDocs, BuildSite.rglobMd]; decide)
  exact h

/-! ## Claim C4 -/

/-- C4 counterexample: the path `posts/__pycache__/y.md` contains the
segment `__pycache__`, which is in the exclusion set (`build_site.py`'s
`EXCLUDE_DIRS`), yet `gen_index.py`'s builder lists it in the index, so
the exclusion invariant as stated fails for the program as a whole. -/
theorem C4_counterexample :
    (["posts", "__pycache__", "y.md"].any
      (fun s => BuildSite.EXCLUDE_DIRS.contains s)) = true ∧
    ["posts", "__pycache__", "y.md"] ∈
      (GenIndex.indexEntries [Fs.dir "__pycache__" [Fs.file "y.md" "t"]]).map
        GenIndex.GEntry.path := by
  constructor
  · decide
  · simp only [GenIndex.indexEntries, GenIndex.walkEntries]
    decide

/-- C4 amended: each component enforces the invariant for its *own*
exclusion set. A path with a hidden segment or a segment in
`gen_index.py`'s (smaller) exclusion set is neither rendered nor listed
by either index builder; a path with a hidden segment or a segment in
`build_site.py`'s set is neither rendered nor listed by `build_site.py`'s
index builder (but may be listed by `gen_index.py`, whose set lacks
`__pycache__` — see the counterexample). -/
theorem C4_amended_exclusion (cs : List Fs) (titles : List (List String × String))
    (p : List String) :
    ((p.any (fun s => pyStartsWith s ".") ||
        p.any (fun s => GenIndex.EXCLUDE_DIRS.contains s)) = true →
      p ∉ (BuildSite.processedDocs (some cs)).map Prod.fst ∧
      p ∉ (BuildSite.indexEntries titles cs).map BuildSite.Entry.mdPath ∧
      p ∉ (GenIndex.indexEntries cs).map GenIndex.GEntry.path) ∧
    ((p.any (fun s => pyStartsWith s ".") ||
        p.any (fun s => BuildSite.EXCLUDE_DIRS.contains s)) = true →
      p ∉ (BuildSite.processedDocs (some cs)).map Prod.fst ∧
      p ∉ (BuildSite.indexEntries titles cs).map BuildSite.Entry.mdPath) := by
  have hgensub : ∀ s : String, GenIndex.EXCLUDE_DIRS.contains s = true →
      BuildSite.EXCLUDE_DIRS.contains s = true := by
    intro s hs
    have hmem : s ∈ GenIndex.EXCLUDE_DIRS := by simpa using hs
    have hmem2 : s ∈ BuildSite.EXCLUDE_DIRS := by
      simp only [GenIndex.EXCLUDE_DIRS, List.mem_cons, List.mem_singleton] at hmem
      simp only [BuildSite.EXCLUDE_DIRS, List.mem_cons, List.mem_singleton]
      tauto
    simpa using hmem2
  have hbad_clean : ∀ s : String,
      (pyStartsWith s "." = true ∨ BuildSite.EXCLUDE_DIRS.contains s = true) →
      cleanPart s = false := by
    intro s hs
    unfold cleanPart
    rcases hs with hs | hs <;> rw [hs] <;> simp
  have hprocessed : ∀ s ∈ p,
      (pyStartsWith s "." = true ∨ BuildSite.EXCLUDE_DIRS.contains s = true) →
      p ∉ (BuildSite.processedDocs (some cs)).map Prod.fst := by
    intro s hs hbad hp
    rw [processed_mem] at hp
    have := (partsOk_iff p).mp hp.2 s hs
    rw [hbad_clean s hbad] at this
    simp at this
  have hsiteidx : ∀ s ∈ p,
      (pyStartsWith s "." = true ∨ BuildSite.EXCLUDE_DIRS.contains s = true) →
      p ∉ (BuildSite.indexEntries titles cs).map BuildSite.Entry.mdPath := by
    intro s hs hbad hp
    rw [site_indexEntries_paths] at hp
    have := site_walk_parts_clean cs p hp s hs
    rw [hbad_clean s hbad] at this
    simp at this
  have hgenidx : ∀ s ∈ p,
      (pyStartsWith s "." = true ∨ GenIndex.EXCLUDE_DIRS.contains s = true) →
      p ∉ (GenIndex.indexEntries cs).map GenIndex.GEntry.path := by
    intro s hs hbad hp
    rw [gen_indexEntries_paths] at hp
    have h2 := gen_walk_parts cs p hp s hs
    rcases hbad with hb | hb
    · rw [h2.1] at hb
      simp at hb
    · rw [h2.2] at hb
      simp at hb
  constructor
  · intro hbad
    simp only [Bool.or_eq_true, List.any_eq_true] at hbad
    rcases hbad with ⟨s, hs, hb⟩ | ⟨s, hs, hb⟩
    · exact ⟨hprocessed s hs (Or.inl hb), hsiteidx s hs (Or.inl hb),
        hgenidx s hs (Or.inl hb)⟩
    · exact ⟨hprocessed s hs (Or.inr (hgensub s hb)),
        hsiteidx s hs (Or.inr (hgensub s hb)), hgenidx s hs (Or.inr hb)⟩
  · intro hbad
    simp only [Bool.or_eq_true, List.any_eq_true] at hbad
    rcases hbad with ⟨s, hs, hb⟩ | ⟨s, hs, hb⟩
    · exact ⟨hprocessed s hs (Or.inl hb), hsiteidx s hs (Or.inl hb)⟩
    · exact ⟨hprocessed s hs (Or.inr hb), hsiteidx s hs (Or.inr hb)⟩

/-- Witness for C4 on the hidden directory `posts/.hidden/a.md`: the
document is neither rendered nor listed in either index. -/
theorem C4_amended_exclusion_witness :
    ["posts", ".hidden", "a.md"] ∉
      (BuildSite.processedDocs
        (some [Fs.dir ".hidden" [Fs.file "a.md" "t"]])).map Prod.fst ∧
    ["posts", ".hidden", "a.md"] ∉
      (BuildSite.indexEntries [] [Fs.dir ".hidden" [Fs.file "a.md" "t"]]).map
        BuildSite.Entry.mdPath ∧
    ["posts", ".hidden", "a.md"] ∉
      (GenIndex.indexEntries [Fs.dir ".hidden" [Fs.file "a.md" "t"]]).map
        GenIndex.GEntry.path :=
  (C4_amended_exclusion [Fs.dir ".hidden" [Fs.file "a.md" "t"]] []
    ["posts", ".hidden", "a.md"]).1 (by decide)

/-! ## Claim C2 -/

/-- C2 counterexample: for the tree `posts/c/note.md`, `gen_index.py`'s
builder emits an entry whose link target is the file's *original* path
(`posts/c/note.md`, no `.html` swap) and whose label is the full
filename (`note.md`, not the stem or a Title Map entry), so the claim
fails for the file entries of that index tree. -/
theorem C2_counterexample :
    GenIndex.indexEntries [Fs.dir "c" [Fs.file "note.md" "hi"]] =
      [⟨["posts", "c", "note.md"], "posts/c/note.md", "note.md"⟩] ∧
    ("posts/c/note.md" : String) ≠ posixJoin (htmlDest ["posts", "c", "note.md"]) ∧
    ("note.md" : String) ≠ pyStem "note.md" := by
  refine ⟨?_, by decide, by decide⟩
  simp only [GenIndex.indexEntries, GenIndex.walkEntries]
  decide

/-- C2 amended: in `build_site.py`'s index every file entry's link target
is the file's path with the extension swapped to `.html` and its label is
the Title Map entry else the filename stem, exactly as claimed; in
`gen_index.py`'s index the link target is the file's unmodified path and
the label is the raw filename. -/
theorem C2_amended_entry_fields (titles : List (List String × String)) (cs : List Fs) :
    (∀ e ∈ BuildSite.indexEntries titles cs,
        e.href = posixJoin (htmlDest e.mdPath) ∧
        e.label = BuildSite.dictGet titles e.mdPath (pyStem e.fname) ∧
        e.fname = lastName e.mdPath) ∧
    (∀ g ∈ GenIndex.indexEntries cs,
        g.href = posixJoin g.path ∧ g.label = lastName g.path) := by
  constructor
  · intro e he
    obtain ⟨d, f, rfl⟩ := site_indexEntry_shape titles cs e he
    refine ⟨rfl, ?_, (lastName_append d f).symm⟩
    show BuildSite.dictGet titles (d ++ [f]) (pyStem f) =
      BuildSite.dictGet titles (d ++ [f]) (pyStem f)
    rfl
  · intro g hg
    obtain ⟨d, f, rfl⟩ := gen_indexEntry_shape cs g hg
    exact ⟨rfl, (lastName_append d f).symm⟩

/-- Witness for C2 (amended) at the single-file tree `posts/y.md`. -/
theorem C2_amended_entry_fields_witness :
    ((BuildSite.mkEntry [] ["posts"] "y.md").href =
        posixJoin (htmlDest (BuildSite.mkEntry [] ["posts"] "y.md").mdPath) ∧
      (BuildSite.mkEntry [] ["posts"] "y.md").label =
        BuildSite.dictGet [] (BuildSite.mkEntry [] ["posts"] "y.md").mdPath
          (pyStem (BuildSite.mkEntry [] ["posts"] "y.md").fname) ∧
      (BuildSite.mkEntry [] ["posts"] "y.md").fname =
        lastName (BuildSite.mkEntry [] ["posts"] "y.md").mdPath) ∧
    ((GenIndex.mkGEntry ["posts"] "y.md").href =
        posixJoin (GenIndex.mkGEntry ["posts"] "y.md").path ∧
      (GenIndex.mkGEntry ["posts"] "y.md").label =
        lastName (GenIndex.mkGEntry ["posts"] "y.md").path) := by
  constructor
  · exact (C2_amended_entry_fields [] [Fs.file "y.md" "hi"]).1
      (BuildSite.mkEntry [] ["posts"] "y.md")
      (by simp only [BuildSite.indexEntries, BuildSite.walkEntries]; decide)
  · exact (C2_amended_entry_fields [] [Fs.file "y.md" "hi"]).2
      (GenIndex.mkGEntry ["posts"] "y.md")
      (by simp only [GenIndex.indexEntries, GenIndex.walkEntries]; decide)

/-! ## Claim C8 -/

/-- C8: the renderer processes documents in deterministic lexicographic
order of their full relative path strings (Python compares `Path`s by
their path string), and within each walked directory both index builders
list filenames in lexicographic order. -/
theorem C8_deterministic_order :
    (∀ root : Option (List Fs), List.Pairwise
        (fun a b : List String × String => posixJoin a.1 ≤ posixJoin b.1)
        (BuildSite.processedDocs root)) ∧
    (∀ (titles : List (List String × String)) (pre : List String) (cs : List Fs),
        List.Pairwise (fun a b : String => a ≤ b)
          ((BuildSite.dirEntries titles pre cs).map BuildSite.Entry.fname)) ∧
    (∀ (pre : List String) (cs : List Fs),
        List.Pairwise (fun a b : String => a ≤ b)
          ((GenIndex.dirEntries pre cs).map GenIndex.GEntry.label)) := by
  refine ⟨?_, ?_, ?_⟩
  · intro root
    cases root with
    | none => exact List.Pairwise.nil
    | some cs =>
        unfold BuildSite.processedDocs BuildSite.sortByPath
        haveI : IsTotal (List String × String)
            (fun a b => posixJoin a.1 ≤ posixJoin b.1) :=
          ⟨fun a b => le_total _ _⟩
        haveI : IsTrans (List String × String)
            (fun a b => posixJoin a.1 ≤ posixJoin b.1) :=
          ⟨fun a b c h1 h2 => le_trans h1 h2⟩
        exact List.Pairwise.filter _ (List.sorted_insertionSort _ _)
  · intro titles pre cs
    have he : (BuildSite.dirEntries titles pre cs).map BuildSite.Entry.fname =
        BuildSite.sortedStr ((fileNames cs).filter BuildSite.fileOk) := by
      unfold BuildSite.dirEntries
      rw [List.map_map,
        show BuildSite.Entry.fname ∘ BuildSite.mkEntry titles pre = id from rfl,
        List.map_id]
    rw [he]
    haveI : IsTotal String (fun a b : String => a ≤ b) := ⟨fun a b => le_total a b⟩
    haveI : IsTrans String (fun a b : String => a ≤ b) := ⟨fun a b c => le_trans⟩
    exact List.sorted_insertionSort _ _
  · intro pre cs
    have he : (GenIndex.dirEntries pre cs).map GenIndex.GEntry.label =
        BuildSite.sortedStr ((fileNames cs).filter GenIndex.fileOk) := by
      unfold GenIndex.dirEntries
      rw [List.map_map,
        show GenIndex.GEntry.label ∘ GenIndex.mkGEntry pre = id from rfl,
        List.map_id]
    rw [he]
    haveI : IsTotal String (fun a b : String => a ≤ b) := ⟨fun a b => le_total a b⟩
    haveI : IsTrans String (fun a b : String => a ≤ b) := ⟨fun a b c => le_trans⟩
    exact List.sorted_insertionSort _ _
